import Mathlib

/-!
# Verification of `cigar-utils`

A shallow embedding of the `cigar-utils` Rust crate (CIGAR string decoding,
augmented CIGAR records, k-way collation of augmented records, and match
expansion), together with proofs and refutations of the specification claims.

Machine integers: `u32` values are modelled as `Nat` with arithmetic reduced
modulo `2 ^ 32` at every operation that can overflow (Rust release-mode
wrapping). `usize` positions in `expand.rs` are modelled as plain `Nat`.
Rust `String`s are modelled as `List Char`; byte slices as `List Nat`.
`BinaryHeap<Reverse<_>>` is modelled as a list kept sorted (minimum first)
by the element comparison, with first-in-first-out placement of elements
that compare equal.
-/

deriving instance DecidableEq for Except

namespace CigarUtils

/-- `2 ^ 32`, the modulus of `u32` arithmetic. -/
def U32 : Nat := 2 ^ 32

/-- CIGAR operation types, from `src/lib.rs` `enum CigarOp`.
Declaration order: M, I, D, N, S, H, P, =, X. -/
inductive CigarOp where
  | Match
  | Insertion
  | Deletion
  | Skip
  | SoftClip
  | HardClip
  | Padding
  | Equal
  | Diff
deriving DecidableEq, Repr

/-- `impl From<CigarOp> for u8` in `src/lib.rs`: the declaration-order rank. -/
def CigarOp.toU8 : CigarOp → Nat
  | .Match => 0
  | .Insertion => 1
  | .Deletion => 2
  | .Skip => 3
  | .SoftClip => 4
  | .HardClip => 5
  | .Padding => 6
  | .Equal => 7
  | .Diff => 8

/-- The comparison Rust derives for unsigned integers
(`Ord` on `u32`): three-way numeric compare. -/
def natCmp (a b : Nat) : Ordering :=
  if a < b then .lt else if b < a then .gt else .eq

/-- The derived `Ord` on `CigarOp` (`#[derive(PartialOrd, Ord)]` in
`src/lib.rs`): declaration order. -/
def CigarOp.cmp (a b : CigarOp) : Ordering := natCmp a.toU8 b.toU8

/-- `impl Display for CigarOp` in `src/lib.rs`: the canonical single-character
code of each operation. -/
def CigarOp.toChar : CigarOp → Char
  | .Match => 'M'
  | .Insertion => 'I'
  | .Deletion => 'D'
  | .Skip => 'N'
  | .SoftClip => 'S'
  | .HardClip => 'H'
  | .Padding => 'P'
  | .Equal => '='
  | .Diff => 'X'

/-- The operation-letter dispatch of `CigarIterator::next` in `src/lib.rs`
(lines 154-167): which character maps to which operation. -/
def charToOp (c : Char) : Option CigarOp :=
  if c = 'M' then some .Match
  else if c = 'I' then some .Insertion
  else if c = 'D' then some .Deletion
  else if c = 'N' then some .Skip
  else if c = 'S' then some .SoftClip
  else if c = 'H' then some .HardClip
  else if c = 'P' then some .Padding
  else if c = '=' then some .Equal
  else if c = 'X' then some .Diff
  else none

/-- A single CIGAR operation element, from `src/lib.rs` `struct CigarElement`.
`length` is a `u32`. -/
structure CigarElement where
  length : Nat
  op : CigarOp
deriving DecidableEq, Repr

/-- Errors from `src/error.rs` `enum CigarError`.  The `External` variant
wraps an opaque boxed error; it is modelled by an opaque numeric code. -/
inductive CigarError where
  | InvalidCharacter (c : Char)
  | MissingCount (c : Char)
  | MissingOperation (length : Nat)
  | External (e : Nat)
deriving DecidableEq, Repr

/-- The decoding loop of `CigarIterator` in `src/lib.rs` (lines 137-175),
unrolled over the whole character stream: each call of `next` starts with
`digit_count = 0` and `length = 0`, accumulates digits
(`length = length * 10 + digit`, wrapping `u32` arithmetic), then classifies
the first non-digit character; after an item is produced (`Ok` or `Err`)
scanning resumes from the following character with fresh state. -/
def decodeLoop : List Char → Nat → Nat → List (Except CigarError CigarElement)
  | [], digitCount, length =>
      if digitCount > 0 then [.error (.MissingOperation length)] else []
  | c :: rest, digitCount, length =>
      if c.isDigit then
        decodeLoop rest (digitCount + 1) ((length * 10 + (c.toNat - '0'.toNat)) % U32)
      else if digitCount = 0 then
        .error (.MissingCount c) :: decodeLoop rest 0 0
      else
        match charToOp c with
        | some op => .ok ⟨length, op⟩ :: decodeLoop rest 0 0
        | none => .error (.InvalidCharacter c) :: decodeLoop rest 0 0

/-- The full decoded stream of a CIGAR string: everything
`CigarIterator::new(cigar)` yields, in order. -/
def decodeAll (cs : List Char) : List (Except CigarError CigarElement) :=
  decodeLoop cs 0 0

/-- Decimal digits of a positive number, least significant first
(helper for the embedding of Rust's `Display` formatting of a `u32`). -/
def natDigitsRev : Nat → List Char
  | 0 => []
  | n + 1 => Nat.digitChar ((n + 1) % 10) :: natDigitsRev ((n + 1) / 10)
decreasing_by exact Nat.div_lt_self (Nat.succ_pos n) (by omega)

/-- Decimal rendering of a number, most significant digit first: the
embedding of Rust's `{}` formatting of the `length` field. -/
def natToChars (n : Nat) : List Char :=
  if n = 0 then ['0'] else (natDigitsRev n).reverse

/-- `impl Display for CigarElement` in `src/lib.rs`: `"{length}{op}"`. -/
def renderElement (e : CigarElement) : List Char :=
  natToChars e.length ++ [e.op.toChar]

/-- `CigarElement::cigar_string` in `src/lib.rs`: concatenated rendering of a
sequence of elements. -/
def cigarString (es : List CigarElement) : List Char :=
  (es.map renderElement).flatten

/-! ## Augmented CIGAR records

`src/collated.rs` reads a `chrom_id` field off `AugmentedCigarElement` and
builds the iterator from a `(cigar, chrom_id, reference_position)` triple;
the copy of `src/augmented_cigar.rs` under `src/` predates that field (its
struct and constructors carry no chromosome).  The `chrom_id` field and its
threading through the iterator are therefore modelled from the spec (§3
`AugmentedRecord` has `chromosome_id`; §4.1 anchors each stream at a
`(chromosome_id, reference_position)` pair and `chromosome_id` is constant
along a stream).  All other fields, the hand-written `Ord`, the derived
structural equality, and the cursor-advancement rules are taken verbatim
from `src/augmented_cigar.rs`. -/

/-- An augmented CIGAR operation element: `AugmentedCigarElement` of
`src/augmented_cigar.rs`, plus the `chrom_id` field that `src/collated.rs`
requires (modelled from the spec, see above).  All numeric fields are `u32`. -/
structure AugmentedCigarElement where
  length : Nat
  op : CigarOp
  read_position : Nat
  reference_position : Nat
  chrom_id : Nat
deriving DecidableEq, Repr

/-- The hand-written `impl Ord for AugmentedCigarElement`
(`src/augmented_cigar.rs` lines 23-35): compare `reference_position`, then
`op` (declaration order), then `length`.  The comparison never looks at
`chrom_id` (nor `read_position`). -/
def AugmentedCigarElement.cmp (a b : AugmentedCigarElement) : Ordering :=
  match natCmp a.reference_position b.reference_position with
  | .eq =>
      match CigarOp.cmp a.op b.op with
      | .eq => natCmp a.length b.length
      | ord => ord
  | ord => ord

/-- Modelled from the spec: §3 — "Total order: primarily by `chromosome_id`,
then `reference_position`, then `kind`'s declaration order, then `length`".
Stated here for comparison against the source's
`AugmentedCigarElement.cmp`. -/
def specCmp (a b : AugmentedCigarElement) : Ordering :=
  match natCmp a.chrom_id b.chrom_id with
  | .eq =>
      match natCmp a.reference_position b.reference_position with
      | .eq =>
          match CigarOp.cmp a.op b.op with
          | .eq => natCmp a.length b.length
          | ord => ord
      | ord => ord
  | ord => ord

/-- Cursor advancement of `AugmentedCigarIterator::next`
(`src/augmented_cigar.rs` lines 90-121): given the current
`(read_position, reference_position)` cursors and the consumed element,
the cursors after the element (wrapping `u32` addition), one match arm per
operation exactly as in the source. -/
def augAdvance (read refp : Nat) (e : CigarElement) : Nat × Nat :=
  match e.op with
  | .Match => ((read + e.length) % U32, (refp + e.length) % U32)
  | .Insertion => ((read + e.length) % U32, refp)
  | .Deletion => (read, (refp + e.length) % U32)
  | .Skip => (read, (refp + e.length) % U32)
  | .SoftClip => ((read + e.length) % U32, refp)
  | .HardClip => ((read + e.length) % U32, refp)
  | .Padding => ((read + e.length) % U32, refp)
  | .Equal => ((read + e.length) % U32, (refp + e.length) % U32)
  | .Diff => ((read + e.length) % U32, (refp + e.length) % U32)

/-- The augmenter over the decoded result stream
(`AugmentedCigarIterator::next`, `src/augmented_cigar.rs` lines 75-127):
each `Ok` token is emitted as a record carrying the pre-advancement cursors
and then advances them; an `Err` is passed through unchanged and does not
move the cursors. -/
def augmentResults (chrom read refp : Nat) :
    List (Except CigarError CigarElement) → List (Except CigarError AugmentedCigarElement)
  | [] => []
  | .error e :: rest => .error e :: augmentResults chrom read refp rest
  | .ok el :: rest =>
      .ok ⟨el.length, el.op, read, refp, chrom⟩ ::
        (let adv := augAdvance read refp el
         augmentResults chrom adv.1 adv.2 rest)

/-- The augmenter restricted to successfully decoded tokens: emits one record
per token (pre-advancement cursors) and advances per `augAdvance`. -/
def augmentTokens (chrom read refp : Nat) : List CigarElement → List AugmentedCigarElement
  | [] => []
  | el :: rest =>
      ⟨el.length, el.op, read, refp, chrom⟩ ::
        (let adv := augAdvance read refp el
         augmentTokens chrom adv.1 adv.2 rest)

/-- The augmenter's cursor state after consuming a token list. -/
def augFinal (read refp : Nat) : List CigarElement → Nat × Nat
  | [] => (read, refp)
  | el :: rest =>
      let adv := augAdvance read refp el
      augFinal adv.1 adv.2 rest

/-! ## The collator (`src/collated.rs`) -/

/-- An item of the collator's external source:
`Result<(String, u32, u32), E>` — a `(cigar, chrom_id, reference_position)`
triple or an opaque source error (modelled by a numeric code). -/
abbrev SourceItem := Except Nat (List Char × Nat × Nat)

/-- The full augmented result stream of one source item: the collator's
`AugmentedCigarIterator::from((cigar_str, chrom_id, reference_position))`
(read cursor starting at 0). -/
def itemResults (cig : List Char) (chrom refp : Nat) :
    List (Except CigarError AugmentedCigarElement) :=
  augmentResults chrom 0 refp (decodeAll cig)

/-- Sorted (minimum-first) insertion into the model of
`BinaryHeap<Reverse<AugmentedCigarElement>>`: the new element goes before
the first strictly greater element, i.e. after all elements it does not
compare less than. -/
def insertSorted (x : AugmentedCigarElement) :
    List AugmentedCigarElement → List AugmentedCigarElement
  | [] => [x]
  | y :: ys =>
      match AugmentedCigarElement.cmp x y with
      | .lt => x :: y :: ys
      | _ => y :: insertSorted x ys

/-- The `for elem in augmented_iter` loop of
`CollatedAugmentedCigarIterator::next` (`src/collated.rs` lines 88-93):
push `Ok` records into the heap until the first `Err`, which is returned;
records already pushed stay in the heap. -/
def pushResults :
    List (Except CigarError AugmentedCigarElement) → List AugmentedCigarElement →
    List AugmentedCigarElement × Option CigarError
  | [], q => (q, none)
  | .ok e :: rest, q => pushResults rest (insertSorted e q)
  | .error e :: _, q => (q, some e)

/-- The admission guard of `CollatedAugmentedCigarIterator::next`
(`src/collated.rs` lines 78-87): peek the item's first record; if it is `Ok`
and the heap is non-empty, stop admitting when the record is strictly
greater than the heap minimum by `chrom_id` then `reference_position`. -/
def blockedCheck (results : List (Except CigarError AugmentedCigarElement))
    (q : List AugmentedCigarElement) : Bool :=
  match results, q with
  | .ok elem :: _, existing :: _ =>
      decide (elem.chrom_id > existing.chrom_id ∨
        (elem.chrom_id = existing.chrom_id ∧
          elem.reference_position > existing.reference_position))
  | _, _ => false

/-- The `while let Some(item) = self.source.peek()` loop of
`CollatedAugmentedCigarIterator::next` (`src/collated.rs` lines 66-95).
Returns the remaining source, the heap, and the error to report, if any:
* a source read error advances the cursor past the item and reports it;
* a blocked item stops the loop with the cursor still on it;
* a cleanly drained item advances the cursor and the loop continues;
* a decode error reports it with the cursor still on the item (the source
  returns before reaching `self.source.next()`) after the item's
  successfully decoded prefix records were pushed. -/
def admitLoop : List SourceItem → List AugmentedCigarElement →
    List SourceItem × List AugmentedCigarElement × Option CigarError
  | [], q => ([], q, none)
  | .error e :: rest, q => (rest, q, some (.External e))
  | .ok (cig, chrom, refp) :: rest, q =>
      let results := itemResults cig chrom refp
      if blockedCheck results q then
        (.ok (cig, chrom, refp) :: rest, q, none)
      else
        match pushResults results q with
        | (q', none) => admitLoop rest q'
        | (q', some e) => (.ok (cig, chrom, refp) :: rest, q', some e)

/-- The pop-and-group step of `CollatedAugmentedCigarIterator::next`
(`src/collated.rs` lines 96-106): after popping `e`, keep popping while the
heap top is equal to `e` (derived structural equality, all fields),
counting. Returns the count and the remaining heap. -/
def popGroup (e : AugmentedCigarElement) :
    List AugmentedCigarElement → Nat × List AugmentedCigarElement
  | [] => (1, [])
  | x :: xs =>
      if x = e then
        let g := popGroup e xs
        (g.1 + 1, g.2)
      else (1, x :: xs)

/-- The collator's state: the remaining external source (peekable cursor)
and the heap contents. -/
structure CollState where
  source : List SourceItem
  queue : List AugmentedCigarElement
deriving DecidableEq, Repr

/-- One output of the collator. -/
abbrev CollOut := Except CigarError (AugmentedCigarElement × Nat)

/-- `CollatedAugmentedCigarIterator::next` (`src/collated.rs` lines 65-110):
run the admission loop; report its error if it produced one; otherwise pop
the heap minimum and group equal records, or end when the heap is empty. -/
def collNext (s : CollState) : Option (CollOut × CollState) :=
  match admitLoop s.source s.queue with
  | (src', q', some e) => some (.error e, ⟨src', q'⟩)
  | (src', q', none) =>
      match q' with
      | [] => none
      | e :: restQ =>
          let g := popGroup e restQ
          some (.ok (e, g.1), ⟨src', g.2⟩)

/-- Iterate the collator at most `fuel` times, collecting outputs. -/
def collRun : Nat → CollState → List CollOut
  | 0, _ => []
  | fuel + 1, s =>
      match collNext s with
      | none => []
      | some (out, s') => out :: collRun fuel s'

/-- The `(chrom_id, reference_position)` anchors of the source's `Ok` items,
in source order. -/
def okAnchors : List SourceItem → List (Nat × Nat)
  | [] => []
  | .error _ :: rest => okAnchors rest
  | .ok (_, c, p) :: rest => (c, p) :: okAnchors rest

/-- The §6 external-source precondition as the spec states it: grouped by
`chrom_id`, `reference_position` is non-decreasing within each chromosome
group in source order (interleaving across chromosomes permitted). -/
def perChromSorted (src : List SourceItem) : Prop :=
  List.Pairwise (fun a b => a.1 = b.1 → a.2 ≤ b.2) (okAnchors src)

/-- The records of the successful output items, in output order. -/
def okOutRecords (outs : List CollOut) : List AugmentedCigarElement :=
  outs.filterMap fun o =>
    match o with
    | .ok (e, _) => some e
    | .error _ => none

/-- The prefix of successful payloads of a result stream, up to (and
excluding) the first error — exactly what the collator's push loop ever
consumes from a stream. -/
def okPrefix {α : Type} : List (Except CigarError α) → List α
  | .ok a :: rest => a :: okPrefix rest
  | _ => []

/-- The records the collator can admit from one source item. -/
def pushableRecords : SourceItem → List AugmentedCigarElement
  | .error _ => []
  | .ok (cig, chrom, refp) => okPrefix (itemResults cig chrom refp)

/-- All admissible records of a source, in source order. -/
def srcRecords (src : List SourceItem) : List AugmentedCigarElement :=
  (src.map pushableRecords).flatten

/-- Whether a source item is error free: it reads successfully and its
CIGAR decodes without error. -/
def itemClean : SourceItem → Bool
  | .error _ => false
  | .ok (cig, _, _) => (decodeAll cig).all fun r => r.toOption.isSome

/-- The records of a collator output list expanded with their
multiplicities (`count` copies of each grouped record). -/
def outRecords : List CollOut → List AugmentedCigarElement
  | [] => []
  | .error _ :: rest => outRecords rest
  | .ok (e, n) :: rest => List.replicate n e ++ outRecords rest

/-- The grouping key of the spec (§3): chromosome, reference position,
kind, length. -/
def groupKey (e : AugmentedCigarElement) : Nat × Nat × CigarOp × Nat :=
  (e.chrom_id, e.reference_position, e.op, e.length)

/-- Sum of `count` over the successful output items whose record has the
given grouping key. -/
def keyCount (k : Nat × Nat × CigarOp × Nat) : List CollOut → Nat
  | [] => 0
  | .error _ :: rest => keyCount k rest
  | .ok (e, n) :: rest => (if groupKey e = k then n else 0) + keyCount k rest

/-- Fuel weight of one source item: one for consuming it plus one per
admissible record. -/
def itemWeight : SourceItem → Nat
  | .error _ => 1
  | .ok (cig, chrom, refp) => 1 + (okPrefix (itemResults cig chrom refp)).length

/-- Fuel weight of a collator state: enough `next` calls to drain it. -/
def stateMeasure (s : CollState) : Nat :=
  (s.source.map itemWeight).sum + s.queue.length

/-- Lexicographic order on `(chrom_id, reference_position)` anchors. -/
def lexLe (a b : Nat × Nat) : Prop :=
  a.1 < b.1 ∨ (a.1 = b.1 ∧ a.2 ≤ b.2)

/-- Non-strict order induced by the source's heap comparison. -/
def qLe (a b : AugmentedCigarElement) : Prop :=
  AugmentedCigarElement.cmp a b ≠ .gt

/-- Non-strict order induced by the spec's chromosome-major total order. -/
def specLe (a b : AugmentedCigarElement) : Prop :=
  specCmp a b ≠ .gt


/-! ## Match expansion (`src/expand.rs`) -/

/-- Outcome classification for `expand_cigar_operations`: either the `Err`
the Rust function returns (a propagated decode error via `elem?`), or the
panic of an unguarded out-of-bounds slice index — the embedding's explicit
error branch for the partiality of the source. -/
inductive ExpandError where
  | cigarErr (e : CigarError)
  | outOfBounds
deriving DecidableEq, Repr

/-- The inner `for (s, r) in seq_slice.iter().zip(ref_slice.iter())` loop of
`expand_cigar_operations` (`src/expand.rs` lines 45-67), including the
trailing flushes: split a match run into alternating `Equal`/`Diff` runs,
appending to `acc`. -/
def runSplit (pairs : List (Nat × Nat)) (acc : List CigarElement)
    (matchLen mismatchLen : Nat) : List CigarElement :=
  match pairs with
  | [] =>
      (acc ++ (if matchLen > 0 then [⟨matchLen, .Equal⟩] else [])) ++
        (if mismatchLen > 0 then [⟨mismatchLen, .Diff⟩] else [])
  | (s, r) :: rest =>
      if s = r then
        if mismatchLen > 0 then
          runSplit rest (acc ++ [⟨mismatchLen, .Diff⟩]) (matchLen + 1) 0
        else runSplit rest acc (matchLen + 1) 0
      else
        if matchLen > 0 then
          runSplit rest (acc ++ [⟨matchLen, .Equal⟩]) 0 (mismatchLen + 1)
        else runSplit rest acc 0 (mismatchLen + 1)

/-- The main loop of `expand_cigar_operations` (`src/expand.rs` lines
38-107): walk the decoded elements tracking `reference_position` and
`read_sequence_position` (both `usize`, modelled as `Nat`), splitting each
`Match` against the two byte slices and passing every other element
through, with the cursor updates of the source (note: hard-clip advances
neither cursor here, and padding advances the reference cursor).  The
`Match` arm's slice indexing `&seq[a..a+len]` / `&reference[b..b+len]` is
unguarded in the source and panics when the end exceeds the sequence
length; the embedding returns `.error .outOfBounds` exactly there.  A
decode error is returned via `elem?`. -/
def expandLoop :
    List (Except CigarError CigarElement) → Nat → Nat → List Nat → List Nat →
    List CigarElement → Except ExpandError (List CigarElement)
  | [], _, _, _, _, acc => .ok acc
  | .error e :: _, _, _, _, _, _ => .error (.cigarErr e)
  | .ok el :: rest, refPos, readPos, refSeq, seq, acc =>
      match el.op with
      | .Match =>
          if readPos + el.length ≤ seq.length ∧ refPos + el.length ≤ refSeq.length then
            expandLoop rest (refPos + el.length) (readPos + el.length) refSeq seq
              (runSplit (((seq.drop readPos).take el.length).zip
                ((refSeq.drop refPos).take el.length)) acc 0 0)
          else .error .outOfBounds
      | .Insertion => expandLoop rest refPos (readPos + el.length) refSeq seq (acc ++ [el])
      | .Deletion => expandLoop rest (refPos + el.length) readPos refSeq seq (acc ++ [el])
      | .Skip => expandLoop rest (refPos + el.length) readPos refSeq seq (acc ++ [el])
      | .SoftClip => expandLoop rest refPos (readPos + el.length) refSeq seq (acc ++ [el])
      | .HardClip => expandLoop rest refPos readPos refSeq seq (acc ++ [el])
      | .Padding => expandLoop rest (refPos + el.length) readPos refSeq seq (acc ++ [el])
      | .Equal =>
          expandLoop rest (refPos + el.length) (readPos + el.length) refSeq seq (acc ++ [el])
      | .Diff =>
          expandLoop rest (refPos + el.length) (readPos + el.length) refSeq seq (acc ++ [el])

/-- `expand_cigar_operations` of `src/expand.rs`: decode the CIGAR and run
the expansion loop from the given starting reference position (read cursor
starting at 0, empty output accumulator). -/
def expand_cigar_operations (refPos : Nat) (cigar : List Char)
    (refSeq seq : List Nat) : Except ExpandError (List CigarElement) :=
  expandLoop (decodeAll cigar) refPos 0 refSeq seq []

/-- Bounds/cleanness checker for `expand_cigar_operations`: the walked
element stream decodes without error and every `Match` element's read range
and reference range lie inside the respective sequence, tracking the same
cursor updates as `expandLoop`. -/
def expandBoundsOk :
    List (Except CigarError CigarElement) → Nat → Nat → Nat → Nat → Bool
  | [], _, _, _, _ => true
  | .error _ :: _, _, _, _, _ => false
  | .ok el :: rest, refPos, readPos, refLen, seqLen =>
      match el.op with
      | .Match =>
          decide (readPos + el.length ≤ seqLen ∧ refPos + el.length ≤ refLen) &&
            expandBoundsOk rest (refPos + el.length) (readPos + el.length) refLen seqLen
      | .Insertion => expandBoundsOk rest refPos (readPos + el.length) refLen seqLen
      | .Deletion => expandBoundsOk rest (refPos + el.length) readPos refLen seqLen
      | .Skip => expandBoundsOk rest (refPos + el.length) readPos refLen seqLen
      | .SoftClip => expandBoundsOk rest refPos (readPos + el.length) refLen seqLen
      | .HardClip => expandBoundsOk rest refPos readPos refLen seqLen
      | .Padding => expandBoundsOk rest (refPos + el.length) readPos refLen seqLen
      | .Equal => expandBoundsOk rest (refPos + el.length) (readPos + el.length) refLen seqLen
      | .Diff => expandBoundsOk rest (refPos + el.length) (readPos + el.length) refLen seqLen

/-! ## Spec-side definitions and measures used by the claims -/

/-- Digit accumulation of the decoder: fold the wrapping
`length = length * 10 + digit` step over a digit list. -/
def accDigits (len : Nat) (ds : List Char) : Nat :=
  ds.foldl (fun a c => (a * 10 + (c.toNat - '0'.toNat)) % U32) len

/-- Digit accumulation without the `u32` wrap (for relating the decoder's
accumulator to the abstract numeric value). -/
def accDigitsNoWrap (len : Nat) (ds : List Char) : Nat :=
  ds.foldl (fun a c => a * 10 + (c.toNat - '0'.toNat)) len

/-- Modelled from the spec: §4.1 — whether an operation kind advances the
read cursor ("match, equal, mismatch: yes; insertion, soft-clip, hard-clip,
padding: yes; deletion, skip: no"). -/
def readAdvances : CigarOp → Bool
  | .Deletion => false
  | .Skip => false
  | _ => true

/-- Modelled from the spec: §4.1 — whether an operation kind advances the
reference cursor ("match, equal, mismatch: yes; deletion, skip: yes;
insertion, soft-clip, hard-clip, padding: no"). -/
def refAdvances : CigarOp → Bool
  | .Match => true
  | .Equal => true
  | .Diff => true
  | .Deletion => true
  | .Skip => true
  | _ => false

/-- Per-token read-cursor advance amount per the §4.1 table. -/
def specReadAdvance (e : CigarElement) : Nat :=
  if readAdvances e.op then e.length else 0

/-- Per-token reference-cursor advance amount per the §4.1 table. -/
def specRefAdvance (e : CigarElement) : Nat :=
  if refAdvances e.op then e.length else 0

/-- Modelled from the spec: §4.1 — the augmenter contract stated in the
spec's words: for each token in order, emit a record with the current
(pre-advancement) cursors and the token's length/kind, then advance the
cursors that the token's kind advances (wrapping `u32` addition). -/
def specAugment (chrom read refp : Nat) : List CigarElement → List AugmentedCigarElement
  | [] => []
  | el :: rest =>
      ⟨el.length, el.op, read, refp, chrom⟩ ::
        specAugment chrom
          (if readAdvances el.op then (read + el.length) % U32 else read)
          (if refAdvances el.op then (refp + el.length) % U32 else refp) rest

/-- Whether an `Ok` item's reference cursor arithmetic stays below `2 ^ 32`
over its admissible tokens (so no `u32` wrap occurs in its record
positions). -/
def itemNoOverflowB : SourceItem → Bool
  | .error _ => true
  | .ok (cig, _, refp) =>
      decide (refp + ((okPrefix (decodeAll cig)).map specRefAdvance).sum < U32)

/-- Invariant bundle carried through the collator's steps in the
order-correctness proof: the heap is sorted by the source comparison and
single-chromosome; the remaining source anchors are lexicographically
sorted and bound the heap's chromosome from above; no remaining item
overflows; and the last emitted record (when any) spec-lower-bounds the
heap and all admissible future records. -/
structure CollInv (s : CollState) (last : Option AugmentedCigarElement) : Prop where
  qsorted : List.Pairwise qLe s.queue
  qchrom : ∀ a ∈ s.queue, ∀ b ∈ s.queue, a.chrom_id = b.chrom_id
  anchors : List.Pairwise lexLe (okAnchors s.source)
  qfut : ∀ a ∈ s.queue, ∀ cp ∈ okAnchors s.source, a.chrom_id ≤ cp.1
  novf : ∀ it ∈ s.source, itemNoOverflowB it = true
  lastq : ∀ m, last = some m → ∀ a ∈ s.queue, specLe m a
  lastfut : ∀ m, last = some m → ∀ it ∈ s.source, ∀ r ∈ pushableRecords it, specLe m r

/-!
## Theorems for the claims
-/

/-- Claim C1: the claim states that the total order used for the merge heap
compares primarily by `chromosome_id`, so that across chromosomes the record
with smaller `chromosome_id` orders first regardless of
`reference_position`.  The source's `impl Ord for AugmentedCigarElement`
never inspects `chrom_id`: at the failing input — a chromosome-2 record at
reference position 10 against a chromosome-1 record at reference position
100 — the code's comparison orders the chromosome-2 record first (`lt`),
while the spec's order (`specCmp`) orders it last (`gt`), and the collator
built on the code's order indeed emits the chromosome-2 record before the
chromosome-1 record. -/
theorem c1_heap_order_ignores_chromosome :
    AugmentedCigarElement.cmp ⟨1, .Match, 0, 10, 2⟩ ⟨1, .Match, 0, 100, 1⟩ = .lt ∧
    specCmp ⟨1, .Match, 0, 10, 2⟩ ⟨1, .Match, 0, 100, 1⟩ = .gt ∧
    collRun 5 ⟨[.ok (['1', 'M'], 2, 10), .ok (['1', 'M'], 1, 100)], []⟩ =
      [.ok (⟨1, .Match, 0, 10, 2⟩, 1), .ok (⟨1, .Match, 0, 100, 1⟩, 1)] := by
  refine ⟨rfl, rfl, ?_⟩
  rfl

/-- Claim C2, counterexample: two insertion records that agree on chromosome
(1), reference position (101), kind (`Insertion`) and length (1) but differ
in `read_position` (1 versus 0) are NOT merged by the collator: the run
yields two separate output items of count 1 for them, because the grouping
comparison is the derived structural equality of `AugmentedCigarElement`,
which includes `read_position`. -/
theorem c2_read_position_splits_group_cex :
    collRun 5 ⟨[.ok (['1', 'M', '1', 'I'], 1, 100), .ok (['1', 'I'], 1, 101)], []⟩ =
      [.ok (⟨1, .Match, 0, 100, 1⟩, 1),
       .ok (⟨1, .Insertion, 1, 101, 1⟩, 1),
       .ok (⟨1, .Insertion, 0, 101, 1⟩, 1)] := by
  rfl

/-- Claim C2 (amended): the collator's grouping equality is the derived
structural equality on all fields; a pair of records agreeing on
chromosome, reference position, kind and length but differing in
`read_position` is treated as distinct — the pop-and-group step refuses to
absorb the second record into the first one's group. -/
theorem c2_grouping_includes_read_position
    (a b : AugmentedCigarElement) (rest : List AugmentedCigarElement)
    (hchrom : a.chrom_id = b.chrom_id)
    (href : a.reference_position = b.reference_position)
    (hop : a.op = b.op) (hlen : a.length = b.length)
    (hread : a.read_position ≠ b.read_position) :
    b ≠ a ∧ popGroup a (b :: rest) = (1, b :: rest) := by
  have hne : b ≠ a := fun h => hread (by rw [h])
  exact ⟨hne, by simp [popGroup, hne]⟩

/-- Claim C2 (amended), witness: the amended grouping statement applied at a
concrete pair of records differing only in `read_position`. -/
theorem c2_grouping_includes_read_position_witness :
    (⟨1, .Insertion, 1, 101, 1⟩ : AugmentedCigarElement) ≠ ⟨1, .Insertion, 0, 101, 1⟩ ∧
    popGroup ⟨1, .Insertion, 0, 101, 1⟩ [⟨1, .Insertion, 1, 101, 1⟩] =
      (1, [⟨1, .Insertion, 1, 101, 1⟩]) :=
  c2_grouping_includes_read_position ⟨1, .Insertion, 0, 101, 1⟩
    ⟨1, .Insertion, 1, 101, 1⟩ [] rfl rfl rfl rfl (by decide)

/-- Claim C3: the claim states that after yielding a decode-error item the
collator advances past the offending source item and continues with
subsequent valid items.  In the source, the decode-error arm returns before
`self.source.next()` is reached, so the cursor does not move: at the
failing input `[Ok("1Z", 1, 100), Ok("1M", 1, 101)]` one `next` call
returns the decode error and leaves the state (source cursor and heap)
completely unchanged, so every subsequent call repeats the same error
forever and the valid item `("1M", 1, 101)` is never processed. -/
theorem c3_decode_error_cursor_not_advanced :
    collNext ⟨[.ok (['1', 'Z'], 1, 100), .ok (['1', 'M'], 1, 101)], []⟩ =
      some (.error (.InvalidCharacter 'Z'),
        ⟨[.ok (['1', 'Z'], 1, 100), .ok (['1', 'M'], 1, 101)], []⟩) ∧
    collRun 3 ⟨[.ok (['1', 'Z'], 1, 100), .ok (['1', 'M'], 1, 101)], []⟩ =
      [.error (.InvalidCharacter 'Z'),
       .error (.InvalidCharacter 'Z'),
       .error (.InvalidCharacter 'Z')] := by
  exact ⟨rfl, rfl⟩

/-- Claim C4: the claim states that a failing item yields exactly one error
output and leaves the heap unchanged.  At the failing input
`[Ok("2M1Z", 1, 100)]`, the first `next` call pushes the partial record
`2M@(1,100)` into the heap before returning the decode error, and — the
cursor not having advanced — the second call pushes a second copy of the
same partial record and reports the same error again. -/
theorem c4_partial_record_admitted :
    collNext ⟨[.ok (['2', 'M', '1', 'Z'], 1, 100)], []⟩ =
      some (.error (.InvalidCharacter 'Z'),
        ⟨[.ok (['2', 'M', '1', 'Z'], 1, 100)], [⟨2, .Match, 0, 100, 1⟩]⟩) ∧
    collNext ⟨[.ok (['2', 'M', '1', 'Z'], 1, 100)], [⟨2, .Match, 0, 100, 1⟩]⟩ =
      some (.error (.InvalidCharacter 'Z'),
        ⟨[.ok (['2', 'M', '1', 'Z'], 1, 100)],
         [⟨2, .Match, 0, 100, 1⟩, ⟨2, .Match, 0, 100, 1⟩]⟩) := by
  exact ⟨rfl, rfl⟩

/-- Claim C5, counterexample: an input satisfying the §6 precondition
(per-chromosome reference positions non-decreasing; interleaving across
chromosomes permitted) on which the collation output violates both the
record total order and per-chromosome-scoped monotonicity of
`reference_position`: the chromosome-1 outputs appear at reference
positions 10, 11, 511 and then 100.  The third claim conjunct exhibits the
scoped violation explicitly. -/
theorem c5_six_precondition_insufficient_cex :
    perChromSorted
      [.ok (['1', 'M', '5', '0', '0', 'D', '1', 'M'], 1, 10),
       .ok (['1', 'M'], 2, 0), .ok (['1', 'M'], 1, 100)] ∧
    okOutRecords (collRun 9
      ⟨[.ok (['1', 'M', '5', '0', '0', 'D', '1', 'M'], 1, 10),
        .ok (['1', 'M'], 2, 0), .ok (['1', 'M'], 1, 100)], []⟩) =
      [⟨1, .Match, 0, 10, 1⟩, ⟨500, .Deletion, 1, 11, 1⟩, ⟨1, .Match, 1, 511, 1⟩,
       ⟨1, .Match, 0, 0, 2⟩, ⟨1, .Match, 0, 100, 1⟩] ∧
    ((⟨1, .Match, 1, 511, 1⟩ : AugmentedCigarElement).chrom_id =
        (⟨1, .Match, 0, 100, 1⟩ : AugmentedCigarElement).chrom_id ∧
      (⟨1, .Match, 0, 100, 1⟩ : AugmentedCigarElement).reference_position <
        (⟨1, .Match, 1, 511, 1⟩ : AugmentedCigarElement).reference_position) := by
  refine ⟨by unfold perChromSorted; decide, by rfl, rfl, by decide⟩

/-- Walking the decoder over a run of digits accumulates the wrapped value
and counts the digits, independent of what follows. -/
theorem decodeLoop_digits (ds : List Char) (h : ∀ d ∈ ds, d.isDigit) :
    ∀ tail dc len,
      decodeLoop (ds ++ tail) dc len = decodeLoop tail (dc + ds.length) (accDigits len ds) := by
  induction ds with
  | nil => intro tail dc len; simp [accDigits]
  | cons d ds ih =>
      intro tail dc len
      have hd : d.isDigit := h d (List.mem_cons_self d ds)
      have hds : ∀ x ∈ ds, x.isDigit := fun x hx => h x (List.mem_cons_of_mem d hx)
      show decodeLoop (d :: (ds ++ tail)) dc len = _
      rw [decodeLoop, if_pos hd, ih hds]
      have h1 : dc + 1 + ds.length = dc + (d :: ds).length := by
        simp only [List.length_cons]
        omega
      rw [h1]
      rfl

/-- Claim C8: complete characterization of the decoder's first item for an
arbitrary token prefix — a run of digits `ds` followed by a non-digit `c`
(or end of string).  `MissingCount c` arises exactly when `c` appears with
no preceding digit; with at least one digit, an operation character yields
the `Ok` token and any other character yields `InvalidCharacter c`;
`MissingOperation` arises exactly when the digits hit end-of-string.  In
every error case exactly one error item is produced and scanning resumes at
the character after `c` — the remainder of the stream is decoded as if
starting fresh, so the sequence is not aborted. -/
theorem c8_decoder_error_taxonomy (ds : List Char) (c : Char) (rest : List Char)
    (hds : ∀ d ∈ ds, d.isDigit) (hc : ¬ c.isDigit) :
    (ds = [] →
      decodeLoop (ds ++ c :: rest) 0 0 = .error (.MissingCount c) :: decodeLoop rest 0 0) ∧
    (ds ≠ [] → ∀ op, charToOp c = some op →
      decodeLoop (ds ++ c :: rest) 0 0 = .ok ⟨accDigits 0 ds, op⟩ :: decodeLoop rest 0 0) ∧
    (ds ≠ [] → charToOp c = none →
      decodeLoop (ds ++ c :: rest) 0 0 =
        .error (.InvalidCharacter c) :: decodeLoop rest 0 0) ∧
    (ds ≠ [] → decodeLoop ds 0 0 = [.error (.MissingOperation (accDigits 0 ds))]) := by
  have hwalk := decodeLoop_digits ds hds
  have hlen : ds ≠ [] → 0 + ds.length ≠ 0 := by
    intro hne h0
    exact hne (List.eq_nil_of_length_eq_zero (by omega))
  refine ⟨?_, ?_, ?_, ?_⟩
  · intro h0
    subst h0
    rw [List.nil_append, decodeLoop, if_neg hc, if_pos rfl]
  · intro hne op hop
    rw [hwalk, decodeLoop, if_neg hc, if_neg (hlen hne), hop]
  · intro hne hop
    rw [hwalk, decodeLoop, if_neg hc, if_neg (hlen hne), hop]
  · intro hne
    have hpos : 0 < ds.length := List.length_pos.mpr hne
    have hw := decodeLoop_digits ds hds [] 0 0
    rw [List.append_nil] at hw
    rw [hw, decodeLoop, if_pos (by omega : 0 + ds.length > 0)]

/-- Claim C8, witness: the characterization applied at the concrete token
prefixes of `"M…"`, `"12X…"`, `"12Z…"` and `"12"`. -/
theorem c8_decoder_error_taxonomy_witness :
    decodeLoop ([] ++ 'M' :: ['5', 'I']) 0 0 =
      .error (.MissingCount 'M') :: decodeLoop ['5', 'I'] 0 0 ∧
    decodeLoop (['1', '2'] ++ 'X' :: ['3', 'M']) 0 0 =
      .ok ⟨accDigits 0 ['1', '2'], .Diff⟩ :: decodeLoop ['3', 'M'] 0 0 ∧
    decodeLoop (['1', '2'] ++ 'Z' :: ['3', 'M']) 0 0 =
      .error (.InvalidCharacter 'Z') :: decodeLoop ['3', 'M'] 0 0 ∧
    decodeLoop ['1', '2'] 0 0 = [.error (.MissingOperation (accDigits 0 ['1', '2']))] := by
  refine ⟨?_, ?_, ?_, ?_⟩
  · exact (c8_decoder_error_taxonomy [] 'M' ['5', 'I'] (by decide) (by decide)).1 rfl
  · exact (c8_decoder_error_taxonomy ['1', '2'] 'X' ['3', 'M'] (by decide)
      (by decide)).2.1 (by decide) .Diff rfl
  · exact (c8_decoder_error_taxonomy ['1', '2'] 'Z' ['3', 'M'] (by decide)
      (by decide)).2.2.1 (by decide) rfl
  · exact (c8_decoder_error_taxonomy ['1', '2'] 'M' [] (by decide)
      (by decide)).2.2.2 (by decide)

/-- Characters produced by `natDigitsRev` are decimal digits. -/
theorem natDigitsRev_digits (n : Nat) : ∀ c ∈ natDigitsRev n, c.isDigit := by
  induction n using natDigitsRev.induct with
  | case1 => intro c hc; simp [natDigitsRev] at hc
  | case2 m ih =>
      intro c hc
      rw [natDigitsRev] at hc
      rcases List.mem_cons.mp hc with h | h
      · subst h
        have h10 : (m + 1) % 10 < 10 := Nat.mod_lt _ (by omega)
        interval_cases h : (m + 1) % 10 <;> decide
      · exact ih c h

/-- Numeric value of a digit character produced by `Nat.digitChar`. -/
theorem digitChar_toNat (m : Nat) (h : m < 10) :
    (Nat.digitChar m).toNat - '0'.toNat = m := by
  interval_cases m <;> decide

/-- Unwrapped digit accumulation over the reversed little-endian digits of a
positive number recovers the number (with the prior accumulator shifted by
the digit count). -/
theorem accDigitsNoWrap_natDigitsRev (n : Nat) (hn : 0 < n) :
    ∀ acc, accDigitsNoWrap acc (natDigitsRev n).reverse =
      acc * 10 ^ (natDigitsRev n).length + n := by
  induction n using Nat.strong_induction_on with
  | _ n ih =>
      intro acc
      match n, hn with
      | m + 1, _ =>
        rw [natDigitsRev]
        simp only [List.reverse_cons, List.length_cons]
        unfold accDigitsNoWrap
        rw [List.foldl_append]
        by_cases hq : (m + 1) / 10 = 0
        · rw [hq]
          simp only [natDigitsRev, List.reverse_nil, List.length_nil, List.foldl_nil,
            List.foldl_cons]
          have hlt : m + 1 < 10 := by omega
          have : (m + 1) % 10 = m + 1 := Nat.mod_eq_of_lt hlt
          rw [digitChar_toNat _ (Nat.mod_lt _ (by omega)), this]
          ring
        · have hql : (m + 1) / 10 < m + 1 := Nat.div_lt_self (by omega) (by omega)
          have ihq := ih ((m + 1) / 10) hql (Nat.pos_of_ne_zero hq) acc
          unfold accDigitsNoWrap at ihq
          rw [ihq]
          simp only [List.foldl_cons, List.foldl_nil]
          rw [digitChar_toNat _ (Nat.mod_lt _ (by omega))]
          have hdm := Nat.div_add_mod (m + 1) 10
          ring_nf
          omega

/-- Unwrapped digit accumulation grows: the accumulator never decreases. -/
theorem accDigitsNoWrap_ge (ds : List Char) : ∀ acc, acc ≤ accDigitsNoWrap acc ds := by
  induction ds with
  | nil => intro acc; simp [accDigitsNoWrap]
  | cons c ds ih =>
      intro acc
      have h1 : acc ≤ acc * 10 + (c.toNat - '0'.toNat) := by omega
      exact le_trans h1 (ih _)

/-- When the final unwrapped value stays below `2 ^ 32`, the wrapping
accumulation agrees with the unwrapped one. -/
theorem accDigits_eq_noWrap (ds : List Char) :
    ∀ acc, accDigitsNoWrap acc ds < U32 → accDigits acc ds = accDigitsNoWrap acc ds := by
  induction ds with
  | nil => intro acc _; rfl
  | cons c ds ih =>
      intro acc hlt
      have hstep : acc * 10 + (c.toNat - '0'.toNat) < U32 := by
        have h1 := accDigitsNoWrap_ge ds (acc * 10 + (c.toNat - '0'.toNat))
        have h2 : accDigitsNoWrap acc (c :: ds) =
            accDigitsNoWrap (acc * 10 + (c.toNat - '0'.toNat)) ds := rfl
        omega
      have hmod : (acc * 10 + (c.toNat - '0'.toNat)) % U32 =
          acc * 10 + (c.toNat - '0'.toNat) := Nat.mod_eq_of_lt hstep
      show accDigits ((acc * 10 + (c.toNat - '0'.toNat)) % U32) ds = _
      rw [hmod]
      exact ih _ (by have h2 : accDigitsNoWrap acc (c :: ds) =
        accDigitsNoWrap (acc * 10 + (c.toNat - '0'.toNat)) ds := rfl; omega)

/-- Decimal rendering then digit accumulation is the identity for `u32`
values. -/
theorem accDigits_natToChars (n : Nat) (hn : n < U32) : accDigits 0 (natToChars n) = n := by
  unfold natToChars
  by_cases h0 : n = 0
  · rw [if_pos h0, h0]; rfl
  · rw [if_neg h0]
    have hv := accDigitsNoWrap_natDigitsRev n (Nat.pos_of_ne_zero h0) 0
    rw [accDigits_eq_noWrap _ 0 (by rw [hv]; omega), hv]
    omega

/-- Characters of `natToChars` are all decimal digits. -/
theorem natToChars_digits (n : Nat) : ∀ c ∈ natToChars n, c.isDigit := by
  unfold natToChars
  by_cases h0 : n = 0
  · rw [if_pos h0]; intro c hc; simp at hc; subst hc; decide
  · rw [if_neg h0]
    intro c hc
    exact natDigitsRev_digits n c (List.mem_reverse.mp hc)

/-- Rendering of `natToChars` is never empty. -/
theorem natToChars_ne_nil (n : Nat) : natToChars n ≠ [] := by
  unfold natToChars
  by_cases h0 : n = 0
  · rw [if_pos h0]; simp
  · rw [if_neg h0]
    have hpos : 0 < n := Nat.pos_of_ne_zero h0
    match n, hpos with
    | m + 1, _ =>
      rw [natDigitsRev]
      simp

/-- Operation code characters are not digits. -/
theorem opChar_not_digit (op : CigarOp) : (CigarOp.toChar op).isDigit = false := by
  cases op <;> decide

/-- Operation code characters decode back to their operation. -/
theorem charToOp_toChar (op : CigarOp) : charToOp (CigarOp.toChar op) = some op := by
  cases op <;> rfl

/-- Decoding one canonically rendered element consumes exactly its
rendering and produces the element. -/
theorem decodeLoop_renderElement (e : CigarElement) (he : e.length < U32)
    (rest : List Char) :
    decodeLoop (renderElement e ++ rest) 0 0 = .ok e :: decodeLoop rest 0 0 := by
  unfold renderElement
  rw [List.append_assoc, List.cons_append, List.nil_append,
    decodeLoop_digits (natToChars e.length) (natToChars_digits e.length),
    decodeLoop, if_neg (by rw [opChar_not_digit]; exact Bool.false_ne_true),
    if_neg (by
      have := List.length_pos.mpr (natToChars_ne_nil e.length)
      omega),
    charToOp_toChar, accDigits_natToChars e.length he]

/-- Projecting a list of `Ok` results back to its payloads. -/
theorem filterMap_toOption_map_ok (es : List CigarElement) :
    ((es.map Except.ok : List (Except CigarError CigarElement)).filterMap
      Except.toOption) = es := by
  induction es with
  | nil => rfl
  | cons e es ih =>
      simp only [List.map_cons, List.filterMap_cons, Except.toOption]
      rw [ih]

/-- Claim C9: round trip between decoding and rendering.  Every well-formed
token string — the canonical concatenated `"<length><code>"` rendering
`cigarString es` of a token list with `u32` lengths — decodes to exactly
those tokens with no error items, and re-rendering the decoded tokens
yields the original string. -/
theorem c9_roundtrip (es : List CigarElement) (h : ∀ e ∈ es, e.length < U32) :
    decodeAll (cigarString es) = es.map Except.ok ∧
    cigarString ((decodeAll (cigarString es)).filterMap Except.toOption) = cigarString es := by
  have hdec : decodeAll (cigarString es) = es.map Except.ok := by
    induction es with
    | nil => rfl
    | cons e es ih =>
        have he : e.length < U32 := h e (List.mem_cons_self e es)
        have hes : ∀ x ∈ es, x.length < U32 := fun x hx => h x (List.mem_cons_of_mem e hx)
        show decodeLoop (cigarString (e :: es)) 0 0 = _
        have hcs : cigarString (e :: es) = renderElement e ++ cigarString es := by
          unfold cigarString
          simp [List.map_cons]
        rw [hcs, decodeLoop_renderElement e he, List.map_cons]
        exact congrArg (Except.ok e :: ·) (ih hes)
  refine ⟨hdec, ?_⟩
  rw [hdec, filterMap_toOption_map_ok]

/-- Claim C9, witness: the round trip applied at the concrete token list
`[10M, 5I, 0P, 123=]`. -/
theorem c9_roundtrip_witness :
    decodeAll (cigarString [⟨10, .Match⟩, ⟨5, .Insertion⟩, ⟨0, .Padding⟩, ⟨123, .Equal⟩]) =
      [⟨10, .Match⟩, ⟨5, .Insertion⟩, ⟨0, .Padding⟩,
        (⟨123, .Equal⟩ : CigarElement)].map Except.ok ∧
    cigarString ((decodeAll (cigarString
        [⟨10, .Match⟩, ⟨5, .Insertion⟩, ⟨0, .Padding⟩,
          ⟨123, .Equal⟩])).filterMap Except.toOption) =
      cigarString [⟨10, .Match⟩, ⟨5, .Insertion⟩, ⟨0, .Padding⟩, ⟨123, .Equal⟩] :=
  c9_roundtrip [⟨10, .Match⟩, ⟨5, .Insertion⟩, ⟨0, .Padding⟩, ⟨123, .Equal⟩] (by decide)

/-- Rewriting the source's nine-arm cursor advancement as the §4.1 table's
two advancement flags: they agree on every operation kind. -/
theorem augAdvance_eq (read refp : Nat) (e : CigarElement) :
    augAdvance read refp e =
      (if readAdvances e.op then (read + e.length) % U32 else read,
       if refAdvances e.op then (refp + e.length) % U32 else refp) := by
  rcases e with ⟨len, op⟩
  cases op <;> rfl

/-- The source augmenter emits exactly the spec-side §4.1 record sequence. -/
theorem augmentTokens_eq_specAugment (ts : List CigarElement) :
    ∀ chrom read refp, augmentTokens chrom read refp ts = specAugment chrom read refp ts := by
  induction ts with
  | nil => intro chrom read refp; rfl
  | cons e ts ih =>
      intro chrom read refp
      rw [augmentTokens, specAugment, augAdvance_eq]
      exact congrArg _ (ih chrom _ _)

/-- The augmenter's final cursor state is the (wrapped) sum of the
per-token advances. -/
theorem augFinal_eq (ts : List CigarElement) :
    ∀ read refp, read < U32 → refp < U32 →
      augFinal read refp ts =
        ((read + (ts.map specReadAdvance).sum) % U32,
         (refp + (ts.map specRefAdvance).sum) % U32) := by
  induction ts with
  | nil =>
      intro read refp hr hp
      simp [augFinal, Nat.mod_eq_of_lt hr, Nat.mod_eq_of_lt hp]
  | cons e ts ih =>
      intro read refp hr hp
      have hU : 0 < U32 := by unfold U32; positivity
      have hm1 : (read + e.length) % U32 < U32 := Nat.mod_lt _ hU
      have hm2 : (refp + e.length) % U32 < U32 := Nat.mod_lt _ hU
      rw [augFinal, augAdvance_eq]
      simp only [List.map_cons, List.sum_cons, specReadAdvance, specRefAdvance]
      cases hrd : readAdvances e.op <;> cases hrf : refAdvances e.op <;>
        simp only [Bool.false_eq_true, eq_self_iff_true, if_false, if_true]
      · rw [ih _ _ hr hp]
        simp
      · rw [ih _ _ hr hm2]
        simp [Nat.mod_add_mod, Nat.add_assoc]
      · rw [ih _ _ hm1 hp]
        simp [Nat.mod_add_mod, Nat.add_assoc]
      · rw [ih _ _ hm1 hm2]
        simp [Nat.mod_add_mod, Nat.add_assoc]

/-- Claim C7: for every decoded token sequence and starting anchor, the
augmenter emits one record per token, in order, carrying the
pre-advancement cursors (read cursor starting at 0), advancing exactly per
the §4.1 table (`specAugment`, the spec-side contract, including hard-clip
and padding advancing the read cursor); consequently the final cursors
equal the (wrapping `u32`) sums of the per-token advances. -/
theorem c7_augmenter_advancement (chrom refp : Nat) (ts : List CigarElement)
    (h : refp < U32) :
    augmentTokens chrom 0 refp ts = specAugment chrom 0 refp ts ∧
    augFinal 0 refp ts =
      ((ts.map specReadAdvance).sum % U32,
       (refp + (ts.map specRefAdvance).sum) % U32) := by
  refine ⟨augmentTokens_eq_specAugment ts chrom 0 refp, ?_⟩
  have hU : 0 < U32 := by unfold U32; positivity
  rw [augFinal_eq ts 0 refp (by omega) h]
  simp

/-- Claim C7, witness: the augmenter contract applied at anchor
`(chrom 1, reference position 100)` and token list `3M 2I 4D 1H`. -/
theorem c7_augmenter_advancement_witness :
    augmentTokens 1 0 100 [⟨3, .Match⟩, ⟨2, .Insertion⟩, ⟨4, .Deletion⟩, ⟨1, .HardClip⟩] =
      specAugment 1 0 100 [⟨3, .Match⟩, ⟨2, .Insertion⟩, ⟨4, .Deletion⟩, ⟨1, .HardClip⟩] ∧
    augFinal 0 100 [⟨3, .Match⟩, ⟨2, .Insertion⟩, ⟨4, .Deletion⟩, ⟨1, .HardClip⟩] =
      (([⟨3, .Match⟩, ⟨2, .Insertion⟩, ⟨4, .Deletion⟩,
          (⟨1, .HardClip⟩ : CigarElement)].map specReadAdvance).sum % U32,
       (100 + ([⟨3, .Match⟩, ⟨2, .Insertion⟩, ⟨4, .Deletion⟩,
          (⟨1, .HardClip⟩ : CigarElement)].map specRefAdvance).sum) % U32) :=
  c7_augmenter_advancement 1 100
    [⟨3, .Match⟩, ⟨2, .Insertion⟩, ⟨4, .Deletion⟩, ⟨1, .HardClip⟩] (by decide)

/-- Claim C10, counterexample: the claim states the function panics
whenever the CIGAR's cumulative read-consuming length exceeds the read
sequence length.  For the CIGAR `"1I"` against empty sequences the
cumulative read-consuming length is 1, exceeding the empty read, yet no
slice is ever taken (only `Match` elements index into the sequences) and
the function returns `Ok([1I])` rather than panicking. -/
theorem c10_nonmatch_overshoot_no_panic_cex :
    ((decodeAll ['1', 'I']).filterMap Except.toOption |>.map specReadAdvance).sum = 1 ∧
    (1 : Nat) > ([] : List Nat).length ∧
    expand_cigar_operations 0 ['1', 'I'] [] [] = .ok [⟨1, .Insertion⟩] := by
  refine ⟨rfl, by decide, rfl⟩

/-- Running the expansion loop under the bounds checker always succeeds. -/
theorem expandLoop_ok (results : List (Except CigarError CigarElement)) :
    ∀ refPos readPos (refSeq seq : List Nat) acc,
      expandBoundsOk results refPos readPos refSeq.length seq.length = true →
      ∃ v, expandLoop results refPos readPos refSeq seq acc = .ok v := by
  induction results with
  | nil => intro refPos readPos refSeq seq acc _; exact ⟨acc, rfl⟩
  | cons r rest ih =>
      intro refPos readPos refSeq seq acc h
      match r with
      | .error e => exact absurd h (by simp [expandBoundsOk])
      | .ok el =>
          rcases el with ⟨len, op⟩
          cases op
          case Match =>
            rw [expandBoundsOk] at h
            simp only [Bool.and_eq_true, decide_eq_true_eq] at h
            rw [expandLoop, if_pos h.1]
            exact ih _ _ _ _ _ h.2
          all_goals (rw [expandBoundsOk] at h; rw [expandLoop]; exact ih _ _ _ _ _ h)

/-- Claim C10 (amended): `expand_cigar_operations` is partial — its
unguarded `Match`-arm slice indexing makes the panic branch reachable
(first conjunct, a concrete witness); overshoot by operations other than
`Match` does not reach any slice (see the counterexample theorem); and
whenever the CIGAR decodes without error and every `Match` element's read
and reference ranges are covered by the sequences (`expandBoundsOk`), no
out-of-bounds access occurs and the function returns `Ok`. -/
theorem c10_match_slices_partiality :
    expand_cigar_operations 0 ['1', 'M'] [] [] = .error .outOfBounds ∧
    (∀ refPos (cigar : List Char) (refSeq seq : List Nat),
      expandBoundsOk (decodeAll cigar) refPos 0 refSeq.length seq.length = true →
      ∃ v, expand_cigar_operations refPos cigar refSeq seq = .ok v) := by
  refine ⟨rfl, ?_⟩
  intro refPos cigar refSeq seq h
  exact expandLoop_ok (decodeAll cigar) refPos 0 refSeq seq [] h

/-- Claim C10 (amended), witness: the `Ok` direction applied at the
repository's own doctest input — CIGAR `"4M"` at reference position 0
against reference `"ACGT"` and read `"AGGT"` (byte values). -/
theorem c10_match_slices_partiality_witness :
    ∃ v, expand_cigar_operations 0 ['4', 'M'] [65, 67, 71, 84] [65, 71, 71, 84] = .ok v :=
  c10_match_slices_partiality.2 0 ['4', 'M'] [65, 67, 71, 84] [65, 71, 71, 84] (by decide)

/-- Characterization of `natCmp _ _ = .lt`. -/
theorem natCmp_eq_lt (a b : Nat) : natCmp a b = .lt ↔ a < b := by
  unfold natCmp
  split_ifs with h1 h2
  · simp [h1]
  · simp
    omega
  · simp
    omega

/-- Characterization of `natCmp _ _ = .gt`. -/
theorem natCmp_eq_gt (a b : Nat) : natCmp a b = .gt ↔ b < a := by
  unfold natCmp
  split_ifs with h1 h2
  · simp
    omega
  · simp [h2]
  · simp
    omega

/-- Characterization of `natCmp _ _ = .eq`. -/
theorem natCmp_eq_eq (a b : Nat) : natCmp a b = .eq ↔ a = b := by
  unfold natCmp
  split_ifs with h1 h2
  · simp
    omega
  · simp
    omega
  · simp
    omega

/-- Explicit lexicographic characterization of the source heap
comparison's `.gt` outcome. -/
theorem cmp_gt_iff (a b : AugmentedCigarElement) :
    AugmentedCigarElement.cmp a b = .gt ↔
      (b.reference_position < a.reference_position ∨
        (b.reference_position = a.reference_position ∧
          (b.op.toU8 < a.op.toU8 ∨ (b.op.toU8 = a.op.toU8 ∧ b.length < a.length)))) := by
  unfold AugmentedCigarElement.cmp CigarOp.cmp
  rcases h1 : natCmp a.reference_position b.reference_position with _ | _ | _
  · simp only [h1]
    have hv := (natCmp_eq_lt _ _).mp h1
    simp
    omega
  · have hv := (natCmp_eq_eq _ _).mp h1
    simp only [h1]
    rcases h2 : natCmp a.op.toU8 b.op.toU8 with _ | _ | _
    · simp only [h2]
      have hv2 := (natCmp_eq_lt _ _).mp h2
      simp
      omega
    · have hv2 := (natCmp_eq_eq _ _).mp h2
      simp only [h2, natCmp_eq_gt]
      omega
    · simp only [h2]
      have hv2 := (natCmp_eq_gt _ _).mp h2
      simp
      omega
  · simp only [h1]
    have hv := (natCmp_eq_gt _ _).mp h1
    simp
    omega

/-- Explicit lexicographic characterization of the source heap
comparison's `.lt` outcome. -/
theorem cmp_lt_iff (a b : AugmentedCigarElement) :
    AugmentedCigarElement.cmp a b = .lt ↔
      (a.reference_position < b.reference_position ∨
        (a.reference_position = b.reference_position ∧
          (a.op.toU8 < b.op.toU8 ∨ (a.op.toU8 = b.op.toU8 ∧ a.length < b.length)))) := by
  unfold AugmentedCigarElement.cmp CigarOp.cmp
  rcases h1 : natCmp a.reference_position b.reference_position with _ | _ | _
  · simp only [h1]
    have hv := (natCmp_eq_lt _ _).mp h1
    simp
    omega
  · have hv := (natCmp_eq_eq _ _).mp h1
    simp only [h1]
    rcases h2 : natCmp a.op.toU8 b.op.toU8 with _ | _ | _
    · simp only [h2]
      have hv2 := (natCmp_eq_lt _ _).mp h2
      simp
      omega
    · have hv2 := (natCmp_eq_eq _ _).mp h2
      simp only [h2, natCmp_eq_lt]
      omega
    · simp only [h2]
      have hv2 := (natCmp_eq_gt _ _).mp h2
      simp
      omega
  · simp only [h1]
    have hv := (natCmp_eq_gt _ _).mp h1
    simp
    omega

/-- Explicit lexicographic characterization of the spec order's `.gt`
outcome (chromosome-major). -/
theorem specCmp_gt_iff (a b : AugmentedCigarElement) :
    specCmp a b = .gt ↔
      (b.chrom_id < a.chrom_id ∨
        (b.chrom_id = a.chrom_id ∧
          (b.reference_position < a.reference_position ∨
            (b.reference_position = a.reference_position ∧
              (b.op.toU8 < a.op.toU8 ∨
                (b.op.toU8 = a.op.toU8 ∧ b.length < a.length)))))) := by
  unfold specCmp CigarOp.cmp
  rcases h0 : natCmp a.chrom_id b.chrom_id with _ | _ | _
  · simp only [h0]
    have hv := (natCmp_eq_lt _ _).mp h0
    simp
    omega
  · have hv0 := (natCmp_eq_eq _ _).mp h0
    simp only [h0]
    rcases h1 : natCmp a.reference_position b.reference_position with _ | _ | _
    · simp only [h1]
      have hv := (natCmp_eq_lt _ _).mp h1
      simp
      omega
    · have hv := (natCmp_eq_eq _ _).mp h1
      simp only [h1]
      rcases h2 : natCmp a.op.toU8 b.op.toU8 with _ | _ | _
      · simp only [h2]
        have hv2 := (natCmp_eq_lt _ _).mp h2
        simp
        omega
      · have hv2 := (natCmp_eq_eq _ _).mp h2
        simp only [h2, natCmp_eq_gt]
        omega
      · simp only [h2]
        have hv2 := (natCmp_eq_gt _ _).mp h2
        simp
        omega
    · simp only [h1]
      have hv := (natCmp_eq_gt _ _).mp h1
      simp
      omega
  · simp only [h0]
    have hv := (natCmp_eq_gt _ _).mp h0
    simp
    omega

/-- Transitivity of the heap's non-strict order. -/
theorem qLe_trans {a b c : AugmentedCigarElement} (h1 : qLe a b) (h2 : qLe b c) :
    qLe a c := by
  unfold qLe at h1 h2 ⊢
  simp only [ne_eq, cmp_gt_iff] at h1 h2 ⊢
  omega

/-- Transitivity of the spec's non-strict order. -/
theorem specLe_trans {a b c : AugmentedCigarElement} (h1 : specLe a b)
    (h2 : specLe b c) : specLe a c := by
  unfold specLe at h1 h2 ⊢
  simp only [ne_eq, specCmp_gt_iff] at h1 h2 ⊢
  omega

/-- Heap order below plus a strict heap comparison above compose. -/
theorem qLe_of_lt {a b : AugmentedCigarElement}
    (h : AugmentedCigarElement.cmp a b = .lt) : qLe a b := by
  unfold qLe
  simp only [ne_eq, cmp_gt_iff]
  rw [cmp_lt_iff] at h
  omega

/-- Totality-flavored fact: when the insertion comparison does not say
strictly less, the reverse non-strict comparison holds. -/
theorem qLe_of_not_lt {a b : AugmentedCigarElement}
    (h : AugmentedCigarElement.cmp a b ≠ .lt) : qLe b a := by
  unfold qLe
  simp only [ne_eq, cmp_gt_iff]
  rw [ne_eq, cmp_lt_iff] at h
  omega

/-- On a single chromosome, the heap order implies the spec order. -/
theorem specLe_of_qLe_chrom {a b : AugmentedCigarElement} (h : qLe a b)
    (hc : a.chrom_id = b.chrom_id) : specLe a b := by
  unfold qLe at h
  unfold specLe
  simp only [ne_eq, cmp_gt_iff] at h
  simp only [ne_eq, specCmp_gt_iff]
  omega

/-- On a single chromosome, the spec order gives a non-decreasing
reference position. -/
theorem specLe_ref_le {a b : AugmentedCigarElement} (h : specLe a b)
    (hc : a.chrom_id = b.chrom_id) : a.reference_position ≤ b.reference_position := by
  unfold specLe at h
  simp only [ne_eq, specCmp_gt_iff] at h
  omega

/-- Strict chromosome-major domination gives the spec order. -/
theorem specLe_of_chrom_ref {a b : AugmentedCigarElement}
    (h : a.chrom_id < b.chrom_id ∨
      (a.chrom_id = b.chrom_id ∧ a.reference_position < b.reference_position)) :
    specLe a b := by
  unfold specLe
  simp only [ne_eq, specCmp_gt_iff]
  omega

/-- Transitivity of the anchor order. -/
theorem lexLe_trans {a b c : Nat × Nat} (h1 : lexLe a b) (h2 : lexLe b c) :
    lexLe a c := by
  unfold lexLe at h1 h2 ⊢
  omega

/-- Membership in the heap after an insertion. -/
theorem insertSorted_mem {x z : AugmentedCigarElement} :
    ∀ {l : List AugmentedCigarElement}, z ∈ insertSorted x l → z = x ∨ z ∈ l := by
  intro l
  induction l with
  | nil =>
      intro h
      rw [insertSorted] at h
      simp at h
      exact Or.inl h
  | cons y ys ih =>
      intro h
      rw [insertSorted] at h
      rcases hc : AugmentedCigarElement.cmp x y with _ | _ | _ <;> rw [hc] at h
      · rcases List.mem_cons.mp h with h1 | h1
        · exact Or.inl h1
        · exact Or.inr h1
      · rcases List.mem_cons.mp h with h1 | h1
        · exact Or.inr (List.mem_cons.mpr (Or.inl h1))
        · rcases ih h1 with h2 | h2
          · exact Or.inl h2
          · exact Or.inr (List.mem_cons.mpr (Or.inr h2))
      · rcases List.mem_cons.mp h with h1 | h1
        · exact Or.inr (List.mem_cons.mpr (Or.inl h1))
        · rcases ih h1 with h2 | h2
          · exact Or.inl h2
          · exact Or.inr (List.mem_cons.mpr (Or.inr h2))

/-- Insertion into a heap sorted by the source comparison keeps it
sorted. -/
theorem insertSorted_pairwise {x : AugmentedCigarElement} :
    ∀ {l : List AugmentedCigarElement}, List.Pairwise qLe l →
      List.Pairwise qLe (insertSorted x l) := by
  intro l
  induction l with
  | nil => intro _; simp [insertSorted]
  | cons y ys ih =>
      intro h
      rcases List.pairwise_cons.mp h with ⟨hy, hys⟩
      rw [insertSorted]
      rcases hc : AugmentedCigarElement.cmp x y with _ | _ | _
      · refine List.pairwise_cons.mpr ⟨?_, h⟩
        intro z hz
        rcases List.mem_cons.mp hz with h1 | h1
        · subst h1
          exact qLe_of_lt hc
        · exact qLe_trans (qLe_of_lt hc) (hy z h1)
      · refine List.pairwise_cons.mpr ⟨?_, ih hys⟩
        intro z hz
        rcases insertSorted_mem hz with h1 | h1
        · subst h1
          exact qLe_of_not_lt (by rw [hc]; simp)
        · exact hy z h1
      · refine List.pairwise_cons.mpr ⟨?_, ih hys⟩
        intro z hz
        rcases insertSorted_mem hz with h1 | h1
        · subst h1
          exact qLe_of_not_lt (by rw [hc]; simp)
        · exact hy z h1

/-- Insertion is, up to permutation, a `cons`. -/
theorem insertSorted_perm (x : AugmentedCigarElement) :
    ∀ (l : List AugmentedCigarElement), (insertSorted x l).Perm (x :: l) := by
  intro l
  induction l with
  | nil => rw [insertSorted]
  | cons y ys ih =>
      rw [insertSorted]
      rcases hc : AugmentedCigarElement.cmp x y with _ | _ | _
      · exact List.Perm.refl _
      · exact List.Perm.trans (List.Perm.cons y ih) (List.Perm.swap x y ys)
      · exact List.Perm.trans (List.Perm.cons y ih) (List.Perm.swap x y ys)

/-- Pushing a result stream: membership in the resulting heap. -/
theorem pushResults_mem (results : List (Except CigarError AugmentedCigarElement)) :
    ∀ (q : List AugmentedCigarElement) (x : AugmentedCigarElement),
      x ∈ (pushResults results q).1 → x ∈ q ∨ x ∈ okPrefix results := by
  induction results with
  | nil => intro q x h; exact Or.inl h
  | cons r rest ih =>
      intro q x h
      match r with
      | .ok e =>
          rw [pushResults] at h
          rcases ih (insertSorted e q) x h with h1 | h1
          · rcases insertSorted_mem h1 with h2 | h2
            · exact Or.inr (by rw [okPrefix]; exact List.mem_cons.mpr (Or.inl h2))
            · exact Or.inl h2
          · exact Or.inr (by rw [okPrefix]; exact List.mem_cons.mpr (Or.inr h1))
      | .error e =>
          rw [pushResults] at h
          exact Or.inl h

/-- Pushing a result stream keeps the heap sorted. -/
theorem pushResults_pairwise (results : List (Except CigarError AugmentedCigarElement)) :
    ∀ (q : List AugmentedCigarElement), List.Pairwise qLe q →
      List.Pairwise qLe (pushResults results q).1 := by
  induction results with
  | nil => intro q h; exact h
  | cons r rest ih =>
      intro q h
      match r with
      | .ok e => exact ih (insertSorted e q) (insertSorted_pairwise h)
      | .error e => exact h

/-- Pushing a result stream is, up to permutation, prepending the
admissible prefix. -/
theorem pushResults_perm (results : List (Except CigarError AugmentedCigarElement)) :
    ∀ (q : List AugmentedCigarElement),
      (pushResults results q).1.Perm (okPrefix results ++ q) := by
  induction results with
  | nil => intro q; exact List.Perm.refl _
  | cons r rest ih =>
      intro q
      match r with
      | .ok e =>
          rw [pushResults, okPrefix]
          refine List.Perm.trans (ih (insertSorted e q)) ?_
          refine List.Perm.trans (List.Perm.append_left (okPrefix rest) (insertSorted_perm e q)) ?_
          exact List.perm_middle
      | .error e =>
          rw [pushResults]
          exact List.Perm.refl _

/-- An all-successful result stream pushes without reporting an error. -/
theorem pushResults_none (results : List (Except CigarError AugmentedCigarElement))
    (h : ∀ r ∈ results, ∃ a, r = .ok a) :
    ∀ q, (pushResults results q).2 = none := by
  induction results with
  | nil => intro q; rfl
  | cons r rest ih =>
      intro q
      match r with
      | .ok e =>
          exact ih (fun r hr => h r (List.mem_cons_of_mem _ hr)) (insertSorted e q)
      | .error e =>
          rcases h (.error e) (List.mem_cons_self _ _) with ⟨a, ha⟩
          exact absurd ha (by simp)

/-- Popping a group returns a suffix of the heap remainder. -/
theorem popGroup_suffix (e : AugmentedCigarElement) :
    ∀ (l : List AugmentedCigarElement), (popGroup e l).2 <:+ l := by
  intro l
  induction l with
  | nil => simp [popGroup]
  | cons x xs ih =>
      by_cases hx : x = e
      · have hg : popGroup e (x :: xs) = ((popGroup e xs).1 + 1, (popGroup e xs).2) := by
          rw [popGroup, if_pos hx]
        rw [hg]
        exact (ih).trans (List.suffix_cons x xs)
      · have hg : popGroup e (x :: xs) = (1, x :: xs) := by
          rw [popGroup, if_neg hx]
        rw [hg]

/-- Popping a group removes exactly `count - 1` copies of the popped
element from the heap remainder (and `count ≥ 1`). -/
theorem popGroup_perm (e : AugmentedCigarElement) :
    ∀ (l : List AugmentedCigarElement),
      1 ≤ (popGroup e l).1 ∧
        (List.replicate ((popGroup e l).1 - 1) e ++ (popGroup e l).2).Perm l := by
  intro l
  induction l with
  | nil => simp [popGroup]
  | cons x xs ih =>
      by_cases hx : x = e
      · have hg : popGroup e (x :: xs) = ((popGroup e xs).1 + 1, (popGroup e xs).2) := by
          rw [popGroup, if_pos hx]
        rw [hg]
        rcases ih with ⟨h1, h2⟩
        refine ⟨by omega, ?_⟩
        have hrep : List.replicate ((popGroup e xs).1 + 1 - 1) e =
            e :: List.replicate ((popGroup e xs).1 - 1) e := by
          have h3 : (popGroup e xs).1 + 1 - 1 = ((popGroup e xs).1 - 1) + 1 := by omega
          rw [h3, List.replicate_succ]
        rw [hrep, List.cons_append]
        subst hx
        exact List.Perm.cons x h2
      · have hg : popGroup e (x :: xs) = (1, x :: xs) := by
          rw [popGroup, if_neg hx]
        rw [hg]
        exact ⟨le_refl 1, by simp⟩

/-- The augmenter's successful prefix is the token-level augmentation of
the decoder's successful prefix (errors pass through without moving the
cursors, so the records before the first error coincide). -/
theorem okPrefix_augmentResults (results : List (Except CigarError CigarElement)) :
    ∀ c r p, okPrefix (augmentResults c r p results) =
      augmentTokens c r p (okPrefix results) := by
  induction results with
  | nil => intro c r p; rfl
  | cons x rest ih =>
      intro c r p
      match x with
      | .error e => rfl
      | .ok el =>
          rw [augmentResults, okPrefix]
          show _ = augmentTokens c r p (el :: okPrefix rest)
          rw [augmentTokens]
          exact congrArg _ (ih c _ _)

/-- Records produced by the token-level augmenter under the no-overflow
bound: they carry the anchor's chromosome and a reference position at
least the anchor's. -/
theorem augmentTokens_bounds (ts : List CigarElement) :
    ∀ (c r p : Nat), p + ((ts.map specRefAdvance).sum) < U32 →
      ∀ rec ∈ augmentTokens c r p ts,
        rec.chrom_id = c ∧ p ≤ rec.reference_position := by
  induction ts with
  | nil => intro c r p _ rec hrec; simp [augmentTokens] at hrec
  | cons el ts ih =>
      intro c r p hbound rec hrec
      rw [augmentTokens, augAdvance_eq] at hrec
      rcases List.mem_cons.mp hrec with h1 | h1
      · subst h1
        exact ⟨rfl, le_refl p⟩
      · simp only [List.map_cons, List.sum_cons, specRefAdvance] at hbound
        cases hrf : refAdvances el.op
        · rw [hrf] at h1 hbound
          simp only [Bool.false_eq_true, if_false] at h1 hbound
          exact ih c _ p (by omega) rec h1
        · rw [hrf] at h1 hbound
          simp only [if_true] at h1 hbound
          have hlt : p + el.length < U32 := by omega
          rw [Nat.mod_eq_of_lt hlt] at h1
          have := ih c _ (p + el.length) (by omega) rec h1
          exact ⟨this.1, by omega⟩

/-- Records the collator can admit from an `Ok` item, under its no-overflow
bound: anchored at the item's chromosome, at or after its reference
position. -/
theorem pushableRecords_bounds (cig : List Char) (c p : Nat)
    (hovf : itemNoOverflowB (.ok (cig, c, p)) = true) :
    ∀ rec ∈ pushableRecords (.ok (cig, c, p)),
      rec.chrom_id = c ∧ p ≤ rec.reference_position := by
  intro rec hrec
  rw [pushableRecords] at hrec
  unfold itemResults at hrec
  rw [okPrefix_augmentResults] at hrec
  rw [itemNoOverflowB] at hovf
  exact augmentTokens_bounds (okPrefix (decodeAll cig)) c 0 p (of_decide_eq_true hovf)
    rec hrec

/-- A non-empty admissible prefix starts with a successful record. -/
theorem okPrefix_ne_nil {α : Type} (results : List (Except CigarError α))
    (h : okPrefix results ≠ []) :
    ∃ f rest', results = .ok f :: rest' ∧ okPrefix results = f :: okPrefix rest' := by
  match results with
  | [] => exact absurd rfl h
  | .error e :: rest => exact absurd rfl h
  | .ok f :: rest => exact ⟨f, rest, rfl, rfl⟩

/-- Evaluation: the admission guard is false for an empty result stream. -/
theorem blockedCheck_nil (q : List AugmentedCigarElement) :
    blockedCheck [] q = false := by
  cases q <;> rfl

/-- Evaluation: the admission guard is false when the stream starts with an
error. -/
theorem blockedCheck_error (e : CigarError)
    (rest : List (Except CigarError AugmentedCigarElement))
    (q : List AugmentedCigarElement) : blockedCheck (.error e :: rest) q = false := by
  cases q <;> rfl

/-- Evaluation: the admission guard on a successful head record and a
non-empty heap. -/
theorem blockedCheck_ok (f : AugmentedCigarElement)
    (rest : List (Except CigarError AugmentedCigarElement))
    (m : AugmentedCigarElement) (restQ : List AugmentedCigarElement) :
    blockedCheck (.ok f :: rest) (m :: restQ) =
      decide (f.chrom_id > m.chrom_id ∨
        (f.chrom_id = m.chrom_id ∧ f.reference_position > m.reference_position)) := rfl

/-- A positive admission guard means the item's first record strictly
dominates the heap minimum by chromosome then reference position. -/
theorem blockedCheck_true_anchor (cig : List Char) (c p : Nat)
    (m : AugmentedCigarElement) (restQ : List AugmentedCigarElement)
    (h : blockedCheck (itemResults cig c p) (m :: restQ) = true) :
    c > m.chrom_id ∨ (c = m.chrom_id ∧ p > m.reference_position) := by
  unfold itemResults at h
  cases hd : decodeAll cig with
  | nil =>
      rw [hd] at h
      rw [augmentResults, blockedCheck_nil] at h
      exact absurd h (by simp)
  | cons x rest =>
      match x with
      | .error e =>
          rw [hd, augmentResults, blockedCheck_error] at h
          exact absurd h (by simp)
      | .ok el =>
          rw [hd, augmentResults, blockedCheck_ok] at h
          exact of_decide_eq_true h

/-- A negative admission guard with a non-empty admissible prefix means the
item's first record does not strictly dominate the heap minimum. -/
theorem blockedCheck_false_anchor (cig : List Char) (c p : Nat)
    (m : AugmentedCigarElement) (restQ : List AugmentedCigarElement)
    (h : blockedCheck (itemResults cig c p) (m :: restQ) = false)
    (hne : okPrefix (itemResults cig c p) ≠ []) :
    ¬(c > m.chrom_id ∨ (c = m.chrom_id ∧ p > m.reference_position)) := by
  unfold itemResults at h hne
  cases hd : decodeAll cig with
  | nil =>
      rw [hd] at hne
      exact absurd rfl hne
  | cons x rest =>
      match x with
      | .error e =>
          rw [hd] at hne
          exact absurd rfl hne
      | .ok el =>
          rw [hd, augmentResults, blockedCheck_ok] at h
          exact of_decide_eq_false h

/-- Unfolding equation for the admission loop at a successful source item. -/
theorem admitLoop_ok_eq (cig : List Char) (c p : Nat) (rest : List SourceItem)
    (q : List AugmentedCigarElement) :
    admitLoop (.ok (cig, c, p) :: rest) q =
      if blockedCheck (itemResults cig c p) q then (.ok (cig, c, p) :: rest, q, none)
      else
        match pushResults (itemResults cig c p) q with
        | (q', none) => admitLoop rest q'
        | (q', some e) => (.ok (cig, c, p) :: rest, q', some e) := rfl

/-- The admission loop leaves a suffix of the source. -/
theorem admitLoop_suffix : ∀ (src : List SourceItem) (q : List AugmentedCigarElement),
    (admitLoop src q).1 <:+ src := by
  intro src
  induction src with
  | nil => intro q; exact List.suffix_refl _
  | cons it rest ih =>
      intro q
      match it with
      | .error e => exact List.suffix_cons _ _
      | .ok (cig, c, p) =>
          rw [admitLoop_ok_eq]
          by_cases hb : blockedCheck (itemResults cig c p) q = true
          · rw [if_pos hb]
          · rw [if_neg hb]
            rcases hp : pushResults (itemResults cig c p) q with ⟨q2, er⟩
            match er with
            | none => exact (ih q2).trans (List.suffix_cons _ _)
            | some e => exact List.suffix_refl _

/-- Heap contents after the admission loop come from the original heap or
from an admissible record of some source item. -/
theorem admitLoop_mem : ∀ (src : List SourceItem) (q : List AugmentedCigarElement)
    (x : AugmentedCigarElement), x ∈ (admitLoop src q).2.1 →
    x ∈ q ∨ ∃ it ∈ src, x ∈ pushableRecords it := by
  intro src
  induction src with
  | nil => intro q x h; exact Or.inl h
  | cons it rest ih =>
      intro q x h
      match it with
      | .error e => exact Or.inl h
      | .ok (cig, c, p) =>
          rw [admitLoop_ok_eq] at h
          by_cases hb : blockedCheck (itemResults cig c p) q = true
          · rw [if_pos hb] at h
            exact Or.inl h
          · rw [if_neg hb] at h
            rcases hp : pushResults (itemResults cig c p) q with ⟨q2, er⟩
            rw [hp] at h
            have hq2 : ∀ y, y ∈ q2 → y ∈ q ∨ y ∈ pushableRecords (.ok (cig, c, p)) := by
              intro y hy
              exact pushResults_mem (itemResults cig c p) q y (by rw [hp]; exact hy)
            match er with
            | none =>
                rcases ih q2 x h with h1 | ⟨it', hit', hx⟩
                · rcases hq2 x h1 with h2 | h2
                  · exact Or.inl h2
                  · exact Or.inr ⟨_, List.mem_cons_self _ _, h2⟩
                · exact Or.inr ⟨it', List.mem_cons_of_mem _ hit', hx⟩
            | some e =>
                rcases hq2 x h with h1 | h1
                · exact Or.inl h1
                · exact Or.inr ⟨_, List.mem_cons_self _ _, h1⟩

/-- When the admission loop stops without an error, either the source is
exhausted or its head item is blocked against the resulting heap. -/
theorem admitLoop_end_shape : ∀ (src : List SourceItem)
    (q : List AugmentedCigarElement), (admitLoop src q).2.2 = none →
    (admitLoop src q).1 = [] ∨
      ∃ cig c p rest, (admitLoop src q).1 = .ok (cig, c, p) :: rest ∧
        blockedCheck (itemResults cig c p) (admitLoop src q).2.1 = true := by
  intro src
  induction src with
  | nil => intro q _; exact Or.inl rfl
  | cons it rest ih =>
      intro q her
      match it with
      | .error e => exact absurd her (by simp [admitLoop])
      | .ok (cig, c, p) =>
          rw [admitLoop_ok_eq] at her ⊢
          by_cases hb : blockedCheck (itemResults cig c p) q = true
          · rw [if_pos hb] at her ⊢
            exact Or.inr ⟨cig, c, p, rest, rfl, hb⟩
          · rw [if_neg hb] at her ⊢
            rcases hp : pushResults (itemResults cig c p) q with ⟨q2, er⟩
            rw [hp] at her
            match er with
            | none => exact ih q2 her
            | some e => exact Option.noConfusion her

/-- Anchors of `Ok` items are listed in `okAnchors`. -/
theorem okAnchors_mem (cig : List Char) (c p : Nat) :
    ∀ src : List SourceItem, .ok (cig, c, p) ∈ src → (c, p) ∈ okAnchors src := by
  intro src
  induction src with
  | nil => intro h; simp at h
  | cons it rest ih =>
      intro h
      rcases List.mem_cons.mp h with h1 | h1
      · subst h1
        rw [okAnchors]
        exact List.mem_cons_self _ _
      · match it with
        | .error e => exact ih h1
        | .ok (cig', c', p') =>
            rw [okAnchors]
            exact List.mem_cons_of_mem _ (ih h1)

/-- Preservation of the structural invariants through the admission loop:
sorted single-chromosome heap, sorted remaining anchors bounding the heap's
chromosome from above, and per-item no-overflow. -/
theorem admitLoop_inv : ∀ (src : List SourceItem) (q : List AugmentedCigarElement),
    List.Pairwise qLe q →
    (∀ a ∈ q, ∀ b ∈ q, a.chrom_id = b.chrom_id) →
    List.Pairwise lexLe (okAnchors src) →
    (∀ a ∈ q, ∀ cp ∈ okAnchors src, a.chrom_id ≤ cp.1) →
    (∀ it ∈ src, itemNoOverflowB it = true) →
    List.Pairwise qLe (admitLoop src q).2.1 ∧
    (∀ a ∈ (admitLoop src q).2.1, ∀ b ∈ (admitLoop src q).2.1,
      a.chrom_id = b.chrom_id) ∧
    List.Pairwise lexLe (okAnchors (admitLoop src q).1) ∧
    (∀ a ∈ (admitLoop src q).2.1, ∀ cp ∈ okAnchors (admitLoop src q).1,
      a.chrom_id ≤ cp.1) ∧
    (∀ it ∈ (admitLoop src q).1, itemNoOverflowB it = true) := by
  intro src
  induction src with
  | nil =>
      intro q h1 h2 h3 h4 h5
      exact ⟨h1, h2, h3, h4, h5⟩
  | cons it rest ih =>
      intro q h1 h2 h3 h4 h5
      match it with
      | .error e =>
          refine ⟨h1, h2, h3, h4, ?_⟩
          intro it' hit'
          exact h5 it' (List.mem_cons_of_mem _ hit')
      | .ok (cig, c, p) =>
          rw [admitLoop_ok_eq]
          by_cases hb : blockedCheck (itemResults cig c p) q = true
          · rw [if_pos hb]
            exact ⟨h1, h2, h3, h4, h5⟩
          · rw [if_neg hb]
            rcases hp : pushResults (itemResults cig c p) q with ⟨q2, er⟩
            have hovfI : itemNoOverflowB (.ok (cig, c, p)) = true :=
              h5 _ (List.mem_cons_self _ _)
            have hrecs := pushableRecords_bounds cig c p hovfI
            have hq2mem : ∀ y ∈ q2, y ∈ q ∨ y ∈ pushableRecords (.ok (cig, c, p)) := by
              intro y hy
              exact pushResults_mem (itemResults cig c p) q y (by rw [hp]; exact hy)
            have hq2sorted : List.Pairwise qLe q2 := by
              have hps := pushResults_pairwise (itemResults cig c p) q h1
              rw [hp] at hps
              exact hps
            have hanchrest : List.Pairwise lexLe (okAnchors rest) :=
              (List.pairwise_cons.mp h3).2
            have hheadlex : ∀ cp ∈ okAnchors rest, lexLe (c, p) cp :=
              (List.pairwise_cons.mp h3).1
            have hceq : ∀ qh, qh ∈ q → okPrefix (itemResults cig c p) ≠ [] →
                c = qh.chrom_id := by
              intro qh hqh hne
              rcases List.exists_cons_of_ne_nil (List.ne_nil_of_mem hqh) with ⟨m, qt, hq⟩
              rw [hq] at hb
              have hbf : blockedCheck (itemResults cig c p) (m :: qt) = false :=
                Bool.eq_false_iff.mpr hb
              have hdom := blockedCheck_false_anchor cig c p m qt hbf hne
              have hle : m.chrom_id ≤ c := by
                have := h4 m (by rw [hq]; exact List.mem_cons_self _ _)
                  (c, p) (List.mem_cons_self _ _)
                exact this
              have hqm : qh.chrom_id = m.chrom_id :=
                h2 qh hqh m (by rw [hq]; exact List.mem_cons_self _ _)
              simp only [not_or, not_and, not_lt] at hdom
              omega
            have hq2chrom : ∀ a ∈ q2, ∀ b ∈ q2, a.chrom_id = b.chrom_id := by
              intro a ha b hb2
              rcases hq2mem a ha with haq | har <;> rcases hq2mem b hb2 with hbq | hbr
              · exact h2 a haq b hbq
              · have hne : okPrefix (itemResults cig c p) ≠ [] :=
                  List.ne_nil_of_mem hbr
                have hc1 := hceq a haq hne
                have hcb := (hrecs b hbr).1
                omega
              · have hne : okPrefix (itemResults cig c p) ≠ [] :=
                  List.ne_nil_of_mem har
                have hc1 := hceq b hbq hne
                have hca := (hrecs a har).1
                omega
              · have hca := (hrecs a har).1
                have hcb := (hrecs b hbr).1
                omega
            have hq2futrest : ∀ a ∈ q2, ∀ cp ∈ okAnchors rest, a.chrom_id ≤ cp.1 := by
              intro a ha cp hcp
              rcases hq2mem a ha with haq | har
              · exact h4 a haq cp (List.mem_cons_of_mem _ hcp)
              · have hca := (hrecs a har).1
                have hlx := hheadlex cp hcp
                unfold lexLe at hlx
                simp at hlx
                omega
            match er with
            | none =>
                exact ih q2 hq2sorted hq2chrom hanchrest hq2futrest
                  (fun it' hit' => h5 it' (List.mem_cons_of_mem _ hit'))
            | some e =>
                refine ⟨hq2sorted, hq2chrom, h3, ?_, h5⟩
                intro a ha cp hcp
                rcases List.mem_cons.mp hcp with h6 | h6
                · subst h6
                  rcases hq2mem a ha with haq | har
                  · exact h4 a haq (c, p) (List.mem_cons_self _ _)
                  · have hca := (hrecs a har).1
                    simp
                    omega
                · rcases hq2mem a ha with haq | har
                  · exact h4 a haq cp (List.mem_cons_of_mem _ h6)
                  · have hca := (hrecs a har).1
                    have hlx := hheadlex cp h6
                    unfold lexLe at hlx
                    simp at hlx
                    omega

/-- After an admission pass that stopped cleanly with a non-empty heap,
every admissible record of every remaining source item is at or above the
heap minimum in the spec's chromosome-major order. -/
theorem blocked_future_bound (src' : List SourceItem) (e : AugmentedCigarElement)
    (restQ : List AugmentedCigarElement)
    (hshape : src' = [] ∨ ∃ cig c p rest, src' = .ok (cig, c, p) :: rest ∧
      blockedCheck (itemResults cig c p) (e :: restQ) = true)
    (hanch : List.Pairwise lexLe (okAnchors src'))
    (hovf : ∀ it ∈ src', itemNoOverflowB it = true) :
    ∀ it ∈ src', ∀ r ∈ pushableRecords it, specLe e r := by
  rcases hshape with hnil | ⟨cig, c, p, rest, hsrc, hb⟩
  · subst hnil
    intro it hit
    simp at hit
  · subst hsrc
    have hdom := blockedCheck_true_anchor cig c p e restQ hb
    intro it hit r hr
    rcases List.mem_cons.mp hit with h6 | h6
    · subst h6
      rcases pushableRecords_bounds cig c p (hovf _ (List.mem_cons_self _ _)) r hr
        with ⟨hrc, hrp⟩
      exact specLe_of_chrom_ref (by omega)
    · match it with
      | .error e2 => simp [pushableRecords] at hr
      | .ok (cig2, c2, p2) =>
          rcases pushableRecords_bounds cig2 c2 p2 (hovf _ hit) r hr with ⟨hrc, hrp⟩
          have hlx : lexLe (c, p) (c2, p2) :=
            (List.pairwise_cons.mp hanch).1 (c2, p2) (okAnchors_mem cig2 c2 p2 rest h6)
          unfold lexLe at hlx
          simp at hlx
          exact specLe_of_chrom_ref (by omega)

/-- One successful collator step: the invariant bundle advances with the
popped record as the new lower bound, and the popped record dominates the
previous bound. -/
theorem collNext_ok_inv (s : CollState) (last : Option AugmentedCigarElement)
    (e : AugmentedCigarElement) (n : Nat) (s' : CollState)
    (hinv : CollInv s last)
    (hstep : collNext s = some (.ok (e, n), s')) :
    CollInv s' (some e) ∧ (∀ m, last = some m → specLe m e) := by
  unfold collNext at hstep
  rcases hal : admitLoop s.source s.queue with ⟨src', q', er⟩
  rw [hal] at hstep
  have hai := admitLoop_inv s.source s.queue hinv.qsorted hinv.qchrom hinv.anchors
    hinv.qfut hinv.novf
  rw [hal] at hai
  rcases hai with ⟨ha1, ha2, ha3, ha4, ha5⟩
  have hmem : ∀ a, a ∈ q' → a ∈ s.queue ∨ ∃ it ∈ s.source, a ∈ pushableRecords it := by
    intro a ha
    have := admitLoop_mem s.source s.queue a (by rw [hal]; exact ha)
    exact this
  match er with
  | some e2 => exact absurd hstep (by simp)
  | none =>
      have hes := admitLoop_end_shape s.source s.queue (by rw [hal])
      rw [hal] at hes
      match hq' : q' with
      | [] => exact Option.noConfusion hstep
      | eh :: restQ =>
          simp only [Option.some.injEq, Prod.mk.injEq, Except.ok.injEq] at hstep
          rcases hstep with ⟨⟨heh, hn⟩, hs'⟩
          subst heh
          subst hs'
          have hbound : ∀ a ∈ eh :: restQ, ∀ m, last = some m → specLe m a := by
            intro a ha m hm
            rcases hmem a ha with h1 | ⟨it, hit, hr⟩
            · exact hinv.lastq m hm a h1
            · exact hinv.lastfut m hm it hit a hr
          have hpw := List.pairwise_cons.mp ha1
          have hfut := blocked_future_bound src' eh restQ hes ha3 ha5
          constructor
          · refine ⟨?_, ?_, ha3, ?_, ha5, ?_, ?_⟩
            · exact List.Pairwise.sublist ((popGroup_suffix eh restQ).sublist) hpw.2
            · intro a ha b hb
              have hsub := (popGroup_suffix eh restQ).subset
              exact ha2 a (List.mem_cons_of_mem _ (hsub ha))
                b (List.mem_cons_of_mem _ (hsub hb))
            · intro a ha cp hcp
              have hsub := (popGroup_suffix eh restQ).subset
              exact ha4 a (List.mem_cons_of_mem _ (hsub ha)) cp hcp
            · intro m hm a ha
              have hme : m = eh := by
                injection hm with h
                exact h.symm
              subst hme
              have hsub := (popGroup_suffix m restQ).subset
              have hq := hpw.1 a (hsub ha)
              have hc := ha2 m (List.mem_cons_self _ _)
                a (List.mem_cons_of_mem _ (hsub ha))
              exact specLe_of_qLe_chrom hq hc
            · intro m hm it hit r hr
              have hme : m = eh := by
                injection hm with h
                exact h.symm
              subst hme
              exact hfut it hit r hr
          · intro m hm
            exact hbound eh (List.mem_cons_self _ _) m hm

/-- An error-reporting collator step preserves the invariant bundle with an
unchanged lower bound. -/
theorem collNext_error_inv (s : CollState) (last : Option AugmentedCigarElement)
    (er : CigarError) (s' : CollState)
    (hinv : CollInv s last)
    (hstep : collNext s = some (.error er, s')) : CollInv s' last := by
  unfold collNext at hstep
  rcases hal : admitLoop s.source s.queue with ⟨src', q', e2⟩
  rw [hal] at hstep
  have hai := admitLoop_inv s.source s.queue hinv.qsorted hinv.qchrom hinv.anchors
    hinv.qfut hinv.novf
  rw [hal] at hai
  rcases hai with ⟨ha1, ha2, ha3, ha4, ha5⟩
  have hmem : ∀ a, a ∈ q' → a ∈ s.queue ∨ ∃ it ∈ s.source, a ∈ pushableRecords it := by
    intro a ha
    have := admitLoop_mem s.source s.queue a (by rw [hal]; exact ha)
    exact this
  have hsub : src' ⊆ s.source := by
    have := admitLoop_suffix s.source s.queue
    rw [hal] at this
    exact this.subset
  match e2 with
  | some e3 =>
      simp only [Option.some.injEq, Prod.mk.injEq, Except.error.injEq] at hstep
      rcases hstep with ⟨_, hs'⟩
      subst hs'
      refine ⟨ha1, ha2, ha3, ha4, ha5, ?_, ?_⟩
      · intro m hm a ha
        rcases hmem a ha with h1 | ⟨it, hit, hr⟩
        · exact hinv.lastq m hm a h1
        · exact hinv.lastfut m hm it hit a hr
      · intro m hm it hit r hr
        exact hinv.lastfut m hm it (hsub hit) r hr
  | none =>
      match q' with
      | [] => exact Option.noConfusion hstep
      | eh :: restQ => exact absurd hstep (by simp)

/-- The successful outputs of any number of collator steps from an
invariant state are non-decreasing in the spec order, and all dominate the
state's lower bound. -/
theorem collRun_pairwise (fuel : Nat) :
    ∀ (s : CollState) (last : Option AugmentedCigarElement), CollInv s last →
      List.Pairwise specLe (okOutRecords (collRun fuel s)) ∧
      (∀ m, last = some m → ∀ r ∈ okOutRecords (collRun fuel s), specLe m r) := by
  induction fuel with
  | zero =>
      intro s last _
      exact ⟨by simp [collRun, okOutRecords], by simp [collRun, okOutRecords]⟩
  | succ fuel ih =>
      intro s last hinv
      rw [collRun]
      cases hnext : collNext s with
      | none => exact ⟨by simp [okOutRecords], by simp [okOutRecords]⟩
      | some outs' =>
          rcases outs' with ⟨out, s'⟩
          match out with
          | .error er =>
              have hinv' := collNext_error_inv s last er s' hinv hnext
              have hrec := ih s' last hinv'
              rw [okOutRecords, List.filterMap_cons]
              exact hrec
          | .ok (e, n) =>
              rcases collNext_ok_inv s last e n s' hinv hnext with ⟨hinv', hdom⟩
              rcases ih s' (some e) hinv' with ⟨hpw, hbd⟩
              rw [okOutRecords, List.filterMap_cons]
              constructor
              · exact List.pairwise_cons.mpr ⟨fun r hr => hbd e rfl r hr, hpw⟩
              · intro m hm r hr
                rcases List.mem_cons.mp hr with h1 | h1
                · subst h1
                  exact hdom m hm
                · exact specLe_trans (hdom m hm) (hbd e rfl r h1)

instance : IsTrans (Nat × Nat) lexLe := ⟨fun _ _ _ h1 h2 => lexLe_trans h1 h2⟩

instance (a b : Nat × Nat) : Decidable (lexLe a b) :=
  inferInstanceAs (Decidable (a.1 < b.1 ∨ (a.1 = b.1 ∧ a.2 ≤ b.2)))

/-- Claim C5 (amended): for every collator input whose `Ok` items are
sorted lexicographically by `(chromosome_id, reference_position)` — all of
a chromosome's items consecutive in increasing chromosome order, reference
positions non-decreasing within each chromosome — and whose items do not
overflow the `u32` reference cursor, the successful output records are
non-decreasing in the spec's chromosome-major total order; in particular,
`reference_position` scoped within each `chromosome_id` is non-decreasing
across the whole output sequence.  (Errors may be interleaved; the bound
applies to the successful outputs.) -/
theorem c5_lex_sorted_output_sorted (input : List SourceItem) (fuel : Nat)
    (hlex : List.Chain' lexLe (okAnchors input))
    (hovf : ∀ it ∈ input, itemNoOverflowB it = true) :
    List.Pairwise
      (fun a b => specLe a b ∧
        (a.chrom_id = b.chrom_id → a.reference_position ≤ b.reference_position))
      (okOutRecords (collRun fuel ⟨input, []⟩)) := by
  have hanch : List.Pairwise lexLe (okAnchors input) := List.chain'_iff_pairwise.mp hlex
  have hinv : CollInv ⟨input, []⟩ none :=
    { qsorted := List.Pairwise.nil
      qchrom := by intro a ha; exact absurd ha (List.not_mem_nil a)
      anchors := hanch
      qfut := by intro a ha; exact absurd ha (List.not_mem_nil a)
      novf := hovf
      lastq := by intro m hm; exact Option.noConfusion hm
      lastfut := by intro m hm; exact Option.noConfusion hm }
  have hpw := (collRun_pairwise fuel ⟨input, []⟩ none hinv).1
  exact hpw.imp fun hab => ⟨hab, fun hc => specLe_ref_le hab hc⟩

/-- Claim C5 (amended), witness: the sortedness theorem applied at the
lexicographically sorted concrete input
`[("2M1I", 1, 100), ("1D2M", 1, 102), ("1M", 2, 5)]`. -/
theorem c5_lex_sorted_output_sorted_witness :
    List.Pairwise
      (fun a b => specLe a b ∧
        (a.chrom_id = b.chrom_id → a.reference_position ≤ b.reference_position))
      (okOutRecords (collRun 12
        ⟨[.ok (['2', 'M', '1', 'I'], 1, 100), .ok (['1', 'D', '2', 'M'], 1, 102),
          .ok (['1', 'M'], 2, 5)], []⟩)) :=
  c5_lex_sorted_output_sorted
    [.ok (['2', 'M', '1', 'I'], 1, 100), .ok (['1', 'D', '2', 'M'], 1, 102),
      .ok (['1', 'M'], 2, 5)] 12 (List.chain'_iff_pairwise.mpr (by decide)) (by decide)

/-- Evaluation: the admission guard is false against an empty heap. -/
theorem blockedCheck_nil_queue (results : List (Except CigarError AugmentedCigarElement)) :
    blockedCheck results [] = false := by
  match results with
  | [] => rfl
  | .error _ :: _ => rfl
  | .ok _ :: _ => rfl

/-- Successful decoding of every item element means every augmented result
is successful. -/
theorem augmentResults_all_ok (results : List (Except CigarError CigarElement))
    (h : ∀ x ∈ results, ∃ el, x = .ok el) :
    ∀ (c r p : Nat), ∀ y ∈ augmentResults c r p results, ∃ a, y = .ok a := by
  induction results with
  | nil => intro c r p y hy; simp [augmentResults] at hy
  | cons x rest ih =>
      intro c r p y hy
      rcases h x (List.mem_cons_self _ _) with ⟨el, hel⟩
      subst hel
      rw [augmentResults] at hy
      rcases List.mem_cons.mp hy with h1 | h1
      · exact ⟨_, h1⟩
      · exact ih (fun x hx => h x (List.mem_cons_of_mem _ hx)) c _ _ y h1

/-- A clean `Ok` item's augmented result stream is all-successful. -/
theorem itemResults_all_ok (cig : List Char) (c p : Nat)
    (h : itemClean (.ok (cig, c, p)) = true) :
    ∀ y ∈ itemResults cig c p, ∃ a, y = .ok a := by
  rw [itemClean] at h
  refine augmentResults_all_ok (decodeAll cig) ?_ c 0 p
  intro x hx
  have := List.all_eq_true.mp h x hx
  match x with
  | .ok el => exact ⟨el, rfl⟩
  | .error e => simp [Except.toOption] at this

/-- The item-weight sum counts each remaining item plus each admissible
record once. -/
theorem sum_itemWeight (src : List SourceItem) :
    (src.map itemWeight).sum = src.length + (srcRecords src).length := by
  induction src with
  | nil => rfl
  | cons it rest ih =>
      match it with
      | .error e =>
          show (1 + (rest.map itemWeight).sum) = _
          rw [ih]
          show _ = (rest.length + 1) + (srcRecords rest).length
          omega
      | .ok (cig, c, p) =>
          show ((1 + (okPrefix (itemResults cig c p)).length) +
            (rest.map itemWeight).sum) = _
          rw [ih]
          show _ = (rest.length + 1) +
            (okPrefix (itemResults cig c p) ++ srcRecords rest).length
          rw [List.length_append]
          omega

/-- An error-free admission pass reports no error, conserves the multiset
of heap-plus-remaining records, and keeps the source clean. -/
theorem admitLoop_clean : ∀ (src : List SourceItem) (q : List AugmentedCigarElement),
    src.all itemClean = true →
    (admitLoop src q).2.2 = none ∧
    ((admitLoop src q).2.1 ++ srcRecords (admitLoop src q).1).Perm
      (q ++ srcRecords src) ∧
    (admitLoop src q).1.all itemClean = true := by
  intro src
  induction src with
  | nil => intro q _; exact ⟨rfl, List.Perm.refl _, rfl⟩
  | cons it rest ih =>
      intro q h
      match it with
      | .error e => simp [itemClean] at h
      | .ok (cig, c, p) =>
          rw [List.all_cons, Bool.and_eq_true] at h
          have hallok := itemResults_all_ok cig c p h.1
          rw [admitLoop_ok_eq]
          by_cases hb : blockedCheck (itemResults cig c p) q = true
          · rw [if_pos hb]
            exact ⟨rfl, List.Perm.refl _, by rw [List.all_cons, Bool.and_eq_true]; exact h⟩
          · rw [if_neg hb]
            rcases hp : pushResults (itemResults cig c p) q with ⟨q2, er⟩
            have hnone : er = none := by
              have := pushResults_none (itemResults cig c p) hallok q
              rw [hp] at this
              exact this
            subst hnone
            have hq2 : q2.Perm (okPrefix (itemResults cig c p) ++ q) := by
              have := pushResults_perm (itemResults cig c p) q
              rw [hp] at this
              exact this
            rcases ih q2 h.2 with ⟨ih1, ih2, ih3⟩
            refine ⟨ih1, ?_, ih3⟩
            refine ih2.trans ?_
            show (q2 ++ srcRecords rest).Perm
              (q ++ (okPrefix (itemResults cig c p) ++ srcRecords rest))
            refine (List.Perm.append_right (srcRecords rest) hq2).trans ?_
            rw [List.append_assoc]
            refine (List.perm_append_comm).trans ?_
            rw [List.append_assoc]
            exact List.Perm.append_left q (List.perm_append_comm)

/-- One collator step on a clean state: either the run is finished with
nothing left, or it emits a grouped record, conserving the record multiset
and strictly decreasing the fuel measure. -/
theorem collNext_clean (s : CollState) (h : s.source.all itemClean = true) :
    (collNext s = none → s.queue = [] ∧ srcRecords s.source = []) ∧
    (∀ out s', collNext s = some (out, s') →
      ∃ e n, out = .ok (e, n) ∧ s'.source.all itemClean = true ∧
        (List.replicate n e ++ (s'.queue ++ srcRecords s'.source)).Perm
          (s.queue ++ srcRecords s.source) ∧
        stateMeasure s' < stateMeasure s) := by
  rcases hal : admitLoop s.source s.queue with ⟨src', q', er⟩
  have hcl := admitLoop_clean s.source s.queue h
  rw [hal] at hcl
  rcases hcl with ⟨hc1, hc2, hc3⟩
  dsimp only at hc1 hc2 hc3
  have her : er = none := hc1
  subst her
  have hsuffix := admitLoop_suffix s.source s.queue
  rw [hal] at hsuffix
  dsimp only at hsuffix
  constructor
  · intro hnone
    unfold collNext at hnone
    rw [hal] at hnone
    match hq' : q' with
    | eh :: restQ => exact Option.noConfusion hnone
    | [] =>
        have hes := admitLoop_end_shape s.source s.queue (by rw [hal])
        rw [hal] at hes
        have hsrc' : src' = [] := by
          rcases hes with h1 | ⟨cig, c, p, rest, h1, h2⟩
          · exact h1
          · rw [blockedCheck_nil_queue] at h2
            exact Bool.noConfusion h2
        rw [hsrc'] at hc2
        have hnil : (s.queue ++ srcRecords s.source) = [] := hc2.symm.eq_nil
        exact ⟨(List.append_eq_nil.mp hnil).1, (List.append_eq_nil.mp hnil).2⟩
  · intro out s' hstep
    unfold collNext at hstep
    rw [hal] at hstep
    match hq' : q' with
    | [] => exact Option.noConfusion hstep
    | eh :: restQ =>
        simp only [Option.some.injEq, Prod.mk.injEq] at hstep
        rcases hstep with ⟨hout, hs'⟩
        refine ⟨eh, (popGroup eh restQ).1, hout.symm, ?_, ?_, ?_⟩
        · rw [← hs']
          exact hc3
        · rw [← hs']
          show (List.replicate (popGroup eh restQ).1 eh ++
            ((popGroup eh restQ).2 ++ srcRecords src')).Perm _
          rcases popGroup_perm eh restQ with ⟨hn1, hn2⟩
          refine List.Perm.trans ?_ hc2
          show List.Perm _ ((eh :: restQ) ++ srcRecords src')
          have hrep : List.replicate (popGroup eh restQ).1 eh =
              eh :: List.replicate ((popGroup eh restQ).1 - 1) eh := by
            have h3 : (popGroup eh restQ).1 = ((popGroup eh restQ).1 - 1) + 1 := by omega
            rw [h3, List.replicate_succ]
            rw [← h3]
          rw [hrep]
          show (eh :: (List.replicate ((popGroup eh restQ).1 - 1) eh ++
            ((popGroup eh restQ).2 ++ srcRecords src'))).Perm _
          rw [List.cons_append]
          refine List.Perm.cons eh ?_
          rw [← List.append_assoc]
          exact List.Perm.append_right (srcRecords src') hn2
        · rw [← hs']
          show stateMeasure ⟨src', (popGroup eh restQ).2⟩ < stateMeasure s
          unfold stateMeasure
          dsimp only
          rw [sum_itemWeight, sum_itemWeight]
          have hlen1 := hc2.length_eq
          rw [List.length_append, List.length_append, List.length_cons] at hlen1
          rcases popGroup_perm eh restQ with ⟨hn1, hn2⟩
          have hlen2 := hn2.length_eq
          rw [List.length_append, List.length_replicate] at hlen2
          have hlen3 : src'.length ≤ s.source.length := hsuffix.length_le
          omega

/-- Error-free collation conserves the record multiset: with enough fuel,
the count-expanded outputs are a permutation of the heap plus all remaining
admissible records. -/
theorem collRun_conserves : ∀ (fuel : Nat) (s : CollState),
    s.source.all itemClean = true → stateMeasure s < fuel →
    (outRecords (collRun fuel s)).Perm (s.queue ++ srcRecords s.source) := by
  intro fuel
  induction fuel with
  | zero => intro s _ hm; omega
  | succ fuel ih =>
      intro s hclean hm
      rw [collRun]
      rcases collNext_clean s hclean with ⟨hnone, hsome⟩
      cases hnext : collNext s with
      | none =>
          rcases hnone hnext with ⟨h1, h2⟩
          rw [h1, h2]
          simp [outRecords]
      | some outs' =>
          rcases outs' with ⟨out, s'⟩
          rcases hsome out s' hnext with ⟨e, n, hout, hclean', hperm, hdec⟩
          subst hout
          rw [outRecords]
          refine List.Perm.trans ?_ hperm
          exact List.Perm.append_left _ (ih s' hclean' (by omega))

/-- Summing `count` over matching output items equals counting matching
records in the count-expanded outputs. -/
theorem keyCount_eq_countP (k : Nat × Nat × CigarOp × Nat) :
    ∀ outs : List CollOut,
      keyCount k outs = (outRecords outs).countP (fun r => decide (groupKey r = k)) := by
  intro outs
  induction outs with
  | nil => rfl
  | cons o rest ih =>
      match o with
      | .error e =>
          rw [keyCount, outRecords]
          exact ih
      | .ok (e, n) =>
          rw [keyCount, outRecords, List.countP_append, ih]
          have hrep : (List.replicate n e).countP (fun r => decide (groupKey r = k)) =
              if groupKey e = k then n else 0 := by
            induction n with
            | zero => simp
            | succ n ihn =>
                rw [List.replicate_succ, List.countP_cons, ihn]
                by_cases hk : groupKey e = k
                · simp [hk]
                · simp [hk]
          rw [hrep]

/-- Claim C6: for every error-free collator input satisfying the §6
per-chromosome sortedness precondition, the complete run (fuel
`stateMeasure + 1` drains it) emits every input record exactly once — the
outputs expanded by their counts are a permutation of the admissible input
records — and for every grouping key `(chromosome, reference position,
kind, length)` the sum of `count` over the output items with that key
equals the number of input records with that exact key. -/
theorem c6_count_conservation (input : List SourceItem)
    (hclean : input.all itemClean = true)
    (hsort : perChromSorted input) :
    (outRecords (collRun (stateMeasure ⟨input, []⟩ + 1) ⟨input, []⟩)).Perm
      (srcRecords input) ∧
    ∀ k, keyCount k (collRun (stateMeasure ⟨input, []⟩ + 1) ⟨input, []⟩) =
      (srcRecords input).countP (fun r => decide (groupKey r = k)) := by
  have hperm := collRun_conserves (stateMeasure ⟨input, []⟩ + 1) ⟨input, []⟩ hclean
    (by omega)
  dsimp only at hperm
  rw [List.nil_append] at hperm
  refine ⟨hperm, ?_⟩
  intro k
  rw [keyCount_eq_countP]
  exact hperm.countP_eq _

/-- Claim C6, witness: conservation applied at the concrete error-free
sorted input `[("1M", 1, 100), ("1M", 1, 100), ("2M", 1, 100)]`. -/
theorem c6_count_conservation_witness :
    (outRecords (collRun
        (stateMeasure ⟨[.ok (['1', 'M'], 1, 100), .ok (['1', 'M'], 1, 100),
          .ok (['2', 'M'], 1, 100)], []⟩ + 1)
        ⟨[.ok (['1', 'M'], 1, 100), .ok (['1', 'M'], 1, 100),
          .ok (['2', 'M'], 1, 100)], []⟩)).Perm
      (srcRecords [.ok (['1', 'M'], 1, 100), .ok (['1', 'M'], 1, 100),
        .ok (['2', 'M'], 1, 100)]) ∧
    ∀ k, keyCount k (collRun
        (stateMeasure ⟨[.ok (['1', 'M'], 1, 100), .ok (['1', 'M'], 1, 100),
          .ok (['2', 'M'], 1, 100)], []⟩ + 1)
        ⟨[.ok (['1', 'M'], 1, 100), .ok (['1', 'M'], 1, 100),
          .ok (['2', 'M'], 1, 100)], []⟩) =
      (srcRecords [.ok (['1', 'M'], 1, 100), .ok (['1', 'M'], 1, 100),
        .ok (['2', 'M'], 1, 100)]).countP (fun r => decide (groupKey r = k)) :=
  c6_count_conservation
    [.ok (['1', 'M'], 1, 100), .ok (['1', 'M'], 1, 100), .ok (['2', 'M'], 1, 100)]
    (by decide) (by unfold perChromSorted; decide)

end CigarUtils


